import Mathlib

/-!
Verification of the SubVision subtitle-extraction engine.

This file gives a shallow embedding, in Lean 4, of the parts of the
SubVision code base that the specification's testable properties talk
about, and proves (or refutes) those properties against the embedding.

Conventions of the embedding:
* Python floats are modelled as exact rationals (`ℚ`); Python ints as `ℤ`
  or `ℕ`.  Python `//` and `%` on ints are `Int.fdiv` / `Int.emod`
  (floor division), `int(...)` applied to a float truncates toward zero.
* Python strings are `List Char`; the helpers mirror `str.strip`,
  `str.replace`, and the regular expressions used by the code.
* Recursive scanners take a fuel argument where Lean needs one for
  structural recursion; they are always invoked with enough fuel for
  the whole input, so the fuel never runs out on the arguments used.
-/

/-! ## Python primitives -/

/-- Python `int(q)` on a float: truncation toward zero. -/
def pyInt (q : ℚ) : ℤ := if 0 ≤ q then ⌊q⌋ else ⌈q⌉

/-- Characters stripped by Python `str.strip()` (the ASCII whitespace
set; the texts handled by the code keep to ASCII whitespace). -/
def pySpace (c : Char) : Bool :=
  c = ' ' ∨ c = '\t' ∨ c = '\n' ∨ c = '\r' ∨ c = '\x0b' ∨ c = '\x0c'

/-- Python `str.strip()`: drop leading and trailing whitespace. -/
def pyStrip (l : List Char) : List Char :=
  ((l.dropWhile pySpace).reverse.dropWhile pySpace).reverse

/-! ## Decimal digit strings
Python prints nonnegative ints in decimal (`f"{i}"`, `str(i)`) and
parses digit strings with `int(...)`.  `natToDigits` uses a fuel
argument (always called with fuel `n + 1 > n`) so that it reduces by
structural recursion. -/

/-- The character of a decimal digit (`0 ≤ n ≤ 9`). -/
def digitChar (n : ℕ) : Char := Char.ofNat (48 + n)

/-- Decimal digits of `n`, most significant first; `fuel > n` suffices. -/
def natToDigitsAux : ℕ → ℕ → List Char
  | 0, _ => []
  | fuel + 1, n =>
    if n < 10 then [digitChar n]
    else natToDigitsAux fuel (n / 10) ++ [digitChar (n % 10)]

/-- Python `f"{n}"` for a nonnegative int `n`. -/
def natToDigits (n : ℕ) : List Char := natToDigitsAux (n + 1) n

/-- Python `int(s)` on a string of decimal digits. -/
def digitsToNat (l : List Char) : ℕ := l.foldl (fun a c => 10 * a + (c.toNat - 48)) 0

/-! ## `geometry.estimate_text_width`
Mirrors `src/backend/core/geometry.py`: per-character width weights,
summed, then `int(math.ceil(width * font_size * width_multiplier))`.
The weights follow the `if/elif` chain of the source. -/

/-- Per-character weight of `estimate_text_width`'s `if/elif` chain. -/
def charWeight (c : Char) : ℚ :=
  if (0x4e00 ≤ c.toNat ∧ c.toNat ≤ 0x9fa5) ∨ (0x3040 ≤ c.toNat ∧ c.toNat ≤ 0x30ff)
      ∨ (0xac00 ≤ c.toNat ∧ c.toNat ≤ 0xd7af) ∨ (0xff00 ≤ c.toNat ∧ c.toNat ≤ 0xffef) then
    (1.1 : ℚ)
  else if c ∈ ['m', 'w', 'W', 'M', '@', 'O', 'Q', 'G'] then (0.95 : ℚ)
  else if 'A' ≤ c ∧ c ≤ 'Z' then (0.8 : ℚ)
  else if '0' ≤ c ∧ c ≤ '9' then (0.65 : ℚ)
  else if c ∈ ['i', 'l', '1', '.', ',', '!', 'I', '|', ':', ';', 't', 'f', 'j'] then (0.35 : ℚ)
  else (0.65 : ℚ)

/-- `geometry.estimate_text_width(text, font_size, width_multiplier)`. -/
def estimate_text_width (text : List Char) (font_size : ℤ) (width_multiplier : ℚ) : ℤ :=
  if text = [] then 0
  else ⌈((text.map charWeight).sum * (font_size : ℚ) * width_multiplier)⌉

/-! ## `geometry.calculate_blur_roi` -/

/-- The settings keys read by `calculate_blur_roi` (a Python dict;
absent keys fall back to the defaults of the source). -/
structure BlurRoiSettings where
  y : Option ℚ := none
  font_size : Option ℚ := none
  width_multiplier : Option ℚ := none
  padding_x : Option ℚ := none
  padding_y : Option ℚ := none

/-- `geometry.calculate_blur_roi(text, width, height, settings)`. -/
def calculate_blur_roi (text : List Char) (width height : ℤ)
    (settings : BlurRoiSettings) : ℤ × ℤ × ℤ × ℤ :=
  if text = [] then (0, 0, 0, 0) else
  let y_pos := pyInt (settings.y.getD ((height : ℚ) - 50))
  let font_size_px := pyInt (settings.font_size.getD 21)
  let width_multiplier := settings.width_multiplier.getD 1
  let text_h := font_size_px + 4
  let text_w := estimate_text_width text font_size_px width_multiplier
  let padding_x := pyInt (settings.padding_x.getD 40)
  let padding_y_factor := settings.padding_y.getD 2
  let padding_y_px := pyInt ((text_h : ℚ) * padding_y_factor)
  let x := Int.fdiv (width - text_w) 2
  let y := y_pos - text_h
  let left := x - padding_x
  let top := y - padding_y_px
  let right := left + text_w + padding_x * 2
  let bottom := top + text_h + padding_y_px * 2
  let final_x := max 0 left
  let final_y := max 0 top
  let final_w := max 0 (min width right - final_x)
  let final_h := max 0 (min height bottom - final_y)
  (final_x, final_y, final_w, final_h)

/-! ## `blur_effects.apply_blur_to_frame`
The guard of the source returns the frame untouched when the ROI is
degenerate or alpha is zero, before any image operation runs.  The
cv2-dependent body (hybrid inpaint, box blur, feather composite) is
abstracted as an arbitrary `pipeline` argument: the theorem about the
guard holds for every implementation of that body. -/

/-- Blur settings dict as read by `apply_blur_to_frame` (only passed
through to the body; the guard does not inspect it). -/
structure BlurSettings where
  mode : Option (List Char) := none
  font_size : Option ℚ := none
  sigma : Option ℚ := none
  feather : Option ℚ := none

/-- `blur_effects.apply_blur_to_frame(frame, roi, settings, alpha)`:
`if bw <= 0 or bh <= 0 or alpha <= 0.0: return frame`, else run the
inpaint/blur/composite body (`pipeline`). -/
def apply_blur_to_frame {Frame : Type} (pipeline : Frame → ℤ × ℤ × ℤ × ℤ → BlurSettings → ℚ → Frame)
    (frame : Frame) (roi : ℤ × ℤ × ℤ × ℤ) (settings : BlurSettings) (alpha : ℚ) : Frame :=
  if roi.2.2.1 ≤ 0 ∨ roi.2.2.2 ≤ 0 ∨ alpha ≤ 0 then frame
  else pipeline frame roi settings alpha

/-! ## `upload.UploadManager`
The chunk directory of one upload id is modelled as
`Option (List (List Char × List ℕ))`: `none` when the directory does
not exist, otherwise the association list of (file name, file bytes).
`os.listdir` enumerates the entries (order unspecified; only counts and
membership are used).  Writing a file replaces any entry of the same
name. -/

/-- One upload's chunk directory: `none` = directory absent. -/
abbrev ChunkDir := Option (List (List Char × List ℕ))

/-- Write a file into a directory listing: replace the same-named
entry in place, or append a new entry. -/
def writeFile : List (List Char × List ℕ) → List Char → List ℕ → List (List Char × List ℕ)
  | [], name, data => [(name, data)]
  | p :: rest, name, data =>
    if p.1 = name then (name, data) :: rest else p :: writeFile rest name data

/-- The chunk file name `f"{chunk_index}.chunk"`. -/
def chunkName (i : ℕ) : List Char := natToDigits i ++ ".chunk".toList

/-- `UploadManager.save_chunk`: `os.makedirs(chunk_dir, exist_ok=True)`
then write `f"{chunk_index}.chunk"`. -/
def save_chunk (dir : ChunkDir) (chunk_index : ℕ) (data : List ℕ) : ChunkDir :=
  some (writeFile (dir.getD []) (chunkName chunk_index) data)

/-- `UploadManager.is_upload_complete`: `False` when the directory is
absent, else compare the count of files named `*.chunk` with
`total_chunks`. -/
def is_upload_complete (dir : ChunkDir) (total_chunks : ℕ) : Bool :=
  match dir with
  | none => false
  | some files =>
    (files.filter (fun p => (".chunk".toList).isSuffixOf p.1)).length = total_chunks

/-- `UploadManager.assemble_file`: concatenate `0.chunk .. N-1.chunk`
in index order (a missing chunk file is skipped), then delete every
file and remove the directory.  Returns the final file's bytes and the
directory state afterwards. -/
def assemble_file (dir : ChunkDir) (total_chunks : ℕ) : List ℕ × ChunkDir :=
  (((List.range total_chunks).map
      (fun i => (((dir.getD []).lookup (chunkName i)).getD []))).join,
    none)

/-- `UploadManager.get_missing_chunks`: all indices when the directory
is absent, else the expected indices not among
`int(f.split(".")[0])` of the `*.chunk` files present. -/
def get_missing_chunks (dir : ChunkDir) (total_chunks : ℕ) : List ℕ :=
  match dir with
  | none => List.range total_chunks
  | some files =>
    let existing := (files.filter (fun p => (".chunk".toList).isSuffixOf p.1)).map
      (fun p => digitsToNat (p.1.takeWhile (fun c => c ≠ '.')))
    (List.range total_chunks).filter (fun i => ¬ existing.contains i)

/-! ## `engine.PaddleWrapper.parse_results`
The attribute-or-key navigation of the raw result object
(`result_list[0]`, `.get("res", ...)`, numpy `.tolist()`) is modelled
away: the input is the extracted `rec_texts` / `rec_scores` /
`rec_boxes` parallel lists, with `none` standing for an empty or
falsy `result_list` / `res` object. -/

/-- The parallel result slices of one recognized frame. -/
structure OcrData where
  rec_texts : List (List Char)
  rec_scores : List ℚ
  rec_boxes : List (List (List ℚ))

/-- The sort key `(box[0][1] + box[2][1]) / 2.0`; `none` when the box
shape makes Python raise `IndexError` (caught by the source). -/
def boxKey (box : List (List ℚ)) : Option ℚ :=
  match box.get? 0, box.get? 2 with
  | some b0, some b2 =>
    match b0.get? 1, b2.get? 1 with
    | some y0, some y2 => some ((y0 + y2) / 2)
    | _, _ => none
  | _, _ => none

/-- The `valid_items` loop of `parse_results`: keep index order, filter
by `score >= conf_thresh` and non-empty stripped text; out-of-range
scores default to `0.0`, out-of-range boxes to `[[0, 0]]`. -/
def validItems (d : OcrData) (conf_thresh : ℚ) :
    List (List (List ℚ) × List Char × ℚ) :=
  (List.range d.rec_texts.length).filterMap (fun i =>
    let text := pyStrip (d.rec_texts.getD i [])
    let score := d.rec_scores.getD i 0
    if conf_thresh ≤ score ∧ text ≠ [] then
      some (d.rec_boxes.getD i [[0, 0]], text, score)
    else none)

/-- The comparison `valid_items.sort(key=...)` sorts by (total on the
defaulted key values; only used when every key computes). -/
def itemLE (x y : List (List ℚ) × List Char × ℚ) : Bool :=
  decide ((boxKey x.1).getD 0 ≤ (boxKey y.1).getD 0)

/-- `PaddleWrapper.parse_results(result_list, conf_thresh)`.  The
`try/except` around `valid_items.sort` leaves the list in input order
when any key raises (Python computes all keys before reordering). -/
def parse_results (data : Option OcrData) (conf_thresh : ℚ) : List Char × ℚ :=
  match data with
  | none => ([], 0)
  | some d =>
    if d.rec_texts = [] then ([], 0) else
    let valid_items := validItems d conf_thresh
    if valid_items = [] then ([], 0) else
    let sorted := if valid_items.all (fun it => (boxKey it.1).isSome) then
        valid_items.mergeSort itemLE
      else valid_items
    let final_texts := sorted.map (fun it => it.2.1)
    let final_scores := sorted.map (fun it => it.2.2)
    let avg_conf : ℚ := if final_scores = [] then 0 else final_scores.sum / final_scores.length
    (List.intercalate [' '] final_texts, avg_conf)

/-! ## `difflib.SequenceMatcher` (used by `utils.is_similar`)
`is_similar(a, b, thr)` returns `SequenceMatcher(None, a, b).ratio() > thr`
unless either string is falsy.  The matcher is modelled from CPython's
`difflib`: `b2j` over the second string with the autojunk heuristic
(strings of length ≥ 200 drop characters occurring more than
`len // 100 + 1` times), `find_longest_match` as the `j2len` dynamic
program (the chain value is `runEnd`) followed by the four
non-junk/junk extension loops, and `ratio` as `2 * M / (la + lb)` where
`M` sums the sizes of the recursively found matching blocks.  Floats
are exact rationals. -/

/-- The autojunk "popular" test on `b`'s characters. -/
def junkB (b : List Char) (c : Char) : Bool :=
  decide (200 ≤ b.length) && decide (b.length / 100 + 1 < b.count c)

/-- `a[i] == b[j]` with `j` present in `b2j` (i.e. `b[j]` not junk). -/
def matchAt (a b : List Char) (i j : ℕ) : Bool :=
  match a.get? i, b.get? j with
  | some ca, some cb => decide (ca = cb) && ! junkB b cb
  | _, _ => false

/-- Length of the matching chain ending at `(i, j)` inside the window
(`j2len.get(j-1, 0) + 1` of the source, unrolled). -/
def runEnd (a b : List Char) (alo blo : ℕ) : ℕ → ℕ → ℕ
  | 0, j => if alo = 0 ∧ blo ≤ j ∧ matchAt a b 0 j then 1 else 0
  | i + 1, j =>
    if alo ≤ i + 1 ∧ blo ≤ j ∧ matchAt a b (i + 1) j then
      (if i + 1 = alo ∨ j = blo then 1 else runEnd a b alo blo i (j - 1) + 1)
    else 0

/-- One step of the inner `for j in b2j.get(a[i])` loop of
`find_longest_match`: update the best block when a strictly longer
chain ends at `(i, j)`. -/
def flmStep (a b : List Char) (alo blo i : ℕ) (acc : ℕ × ℕ × ℕ) (j : ℕ) : ℕ × ℕ × ℕ :=
  let k := runEnd a b alo blo i j
  if acc.2.2 < k then (i + 1 - k, j + 1 - k, k) else acc

/-- The inner loop of `find_longest_match` over `j ∈ [blo, bhi)`. -/
def flmRow (a b : List Char) (alo blo bhi i : ℕ) (best : ℕ × ℕ × ℕ) : ℕ × ℕ × ℕ :=
  (List.range' blo (bhi - blo)).foldl (flmStep a b alo blo i) best

/-- The outer `for i in range(alo, ahi)` loop of `find_longest_match`. -/
def flmMain (a b : List Char) (alo ahi blo bhi : ℕ) : ℕ × ℕ × ℕ :=
  (List.range' alo (ahi - alo)).foldl (fun acc i => flmRow a b alo blo bhi i acc) (alo, blo, 0)

/-- One of the two leftward extension loops of `find_longest_match`
(`wantJunk` selects the non-junk or the junk loop); fuel `besti`
suffices. -/
def extendLeft (a b : List Char) (alo blo : ℕ) (wantJunk : Bool) :
    ℕ → ℕ × ℕ × ℕ → ℕ × ℕ × ℕ
  | 0, best => best
  | fuel + 1, (bi, bj, bs) =>
    if alo < bi ∧ blo < bj ∧ junkB b (b.getD (bj - 1) ' ') = wantJunk ∧
        a.getD (bi - 1) ' ' = b.getD (bj - 1) ' ' then
      extendLeft a b alo blo wantJunk fuel (bi - 1, bj - 1, bs + 1)
    else (bi, bj, bs)

/-- One of the two rightward extension loops of `find_longest_match`;
fuel `ahi - (besti + bestsize)` suffices. -/
def extendRight (a b : List Char) (ahi bhi : ℕ) (wantJunk : Bool) :
    ℕ → ℕ × ℕ × ℕ → ℕ × ℕ × ℕ
  | 0, best => best
  | fuel + 1, (bi, bj, bs) =>
    if bi + bs < ahi ∧ bj + bs < bhi ∧ junkB b (b.getD (bj + bs) ' ') = wantJunk ∧
        a.getD (bi + bs) ' ' = b.getD (bj + bs) ' ' then
      extendRight a b ahi bhi wantJunk fuel (bi, bj, bs + 1)
    else (bi, bj, bs)

/-- `SequenceMatcher.find_longest_match(alo, ahi, blo, bhi)`. -/
def find_longest_match (a b : List Char) (alo ahi blo bhi : ℕ) : ℕ × ℕ × ℕ :=
  let m0 := flmMain a b alo ahi blo bhi
  let m1 := extendLeft a b alo blo false m0.1 m0
  let m2 := extendRight a b ahi bhi false (ahi - (m1.1 + m1.2.2)) m1
  let m3 := extendLeft a b alo blo true m2.1 m2
  let m4 := extendRight a b ahi bhi true (ahi - (m3.1 + m3.2.2)) m3
  m4

/-- Total size of the matching blocks found by the
`get_matching_blocks` recursion (only the sum matters for `ratio`);
fuel `la + lb + 1` suffices since every sub-window is strictly
smaller. -/
def matchingTotalAux (a b : List Char) : ℕ → ℕ → ℕ → ℕ → ℕ → ℕ
  | 0, _, _, _, _ => 0
  | fuel + 1, alo, ahi, blo, bhi =>
    let m := find_longest_match a b alo ahi blo bhi
    if m.2.2 = 0 then 0
    else m.2.2 +
      (if alo < m.1 ∧ blo < m.2.1 then matchingTotalAux a b fuel alo m.1 blo m.2.1 else 0) +
      (if m.1 + m.2.2 < ahi ∧ m.2.1 + m.2.2 < bhi then
        matchingTotalAux a b fuel (m.1 + m.2.2) ahi (m.2.1 + m.2.2) bhi else 0)

/-- Sum of matching-block sizes over the whole strings. -/
def matchingTotal (a b : List Char) : ℕ :=
  matchingTotalAux a b (a.length + b.length + 1) 0 a.length 0 b.length

/-- `SequenceMatcher.ratio()` (`1.0` when both strings are empty). -/
def ratioQ (a b : List Char) : ℚ :=
  if a.length + b.length = 0 then 1
  else 2 * (matchingTotal a b : ℚ) / ((a.length : ℚ) + (b.length : ℚ))

/-- `utils.is_similar(text1, text2, threshold)`. -/
def is_similar (t1 t2 : List Char) (threshold : ℚ) : Bool :=
  if t1 = [] ∨ t2 = [] then false
  else decide (threshold < ratioQ t1 t2)

/-! ## `subtitle_aggregator.SubtitleAggregator`
Python `end` is a Lean keyword; the field is named `endt`.  The
`on_new_subtitle` callback does not affect the aggregator state and is
omitted. -/

/-- `SubtitleEvent`: one subtitle event currently being tracked. -/
structure SubtitleEvent where
  text : List Char
  start : ℚ
  endt : ℚ
  max_conf : ℚ
  gap_frames : ℕ

/-- A committed subtitle item (the dict built by `_commit_event`). -/
structure SubtitleItem where
  id : ℕ
  start : ℚ
  endt : ℚ
  text : List Char
  conf : ℚ

/-- The mutable state of a `SubtitleAggregator`. -/
structure AggState where
  srt_data : List SubtitleItem
  active_event : Option SubtitleEvent
  min_conf : ℚ
  gap_tolerance : ℕ
  frame_duration : ℚ

/-- `SubtitleAggregator.__init__(min_conf, gap_tolerance, fps)`. -/
def aggInit (min_conf : ℚ) (gap_tolerance : ℕ) (fps : ℚ) : AggState :=
  { srt_data := [], active_event := none, min_conf := min_conf,
    gap_tolerance := gap_tolerance,
    frame_duration := if 0 < fps then 1 / fps else (0.04 : ℚ) }

/-- `SubtitleEvent.extend(text, end, conf)`. -/
def SubtitleEvent.extend (e : SubtitleEvent) (text : List Char) (endv conf : ℚ) :
    SubtitleEvent :=
  if e.max_conf < conf ∨ (conf = e.max_conf ∧ e.text.length < text.length) then
    { text := text, start := e.start, endt := endv, max_conf := conf, gap_frames := 0 }
  else { e with endt := endv, gap_frames := 0 }

/-- `SubtitleAggregator._commit_event()`. -/
def commitEvent (s : AggState) : AggState :=
  match s.active_event with
  | none => s
  | some e =>
    { s with
      srt_data := s.srt_data ++
        [{ id := s.srt_data.length + 1, start := e.start, endt := e.endt,
           text := e.text, conf := e.max_conf }],
      active_event := none }

/-- `SubtitleAggregator.add_result(text, conf, timestamp)`. -/
def add_result (s : AggState) (text : List Char) (conf timestamp : ℚ) : AggState :=
  let frame_end_time := timestamp + s.frame_duration
  if text ≠ [] ∧ s.min_conf ≤ conf then
    match s.active_event with
    | some e =>
      if is_similar e.text text (0.6 : ℚ) then
        { s with active_event := some (e.extend text frame_end_time conf) }
      else
        let s2 := commitEvent s
        { s2 with active_event := some ⟨text, timestamp, frame_end_time, conf, 0⟩ }
    | none =>
      { s with active_event := some ⟨text, timestamp, frame_end_time, conf, 0⟩ }
  else
    match s.active_event with
    | some e =>
      let s1 := { s with active_event := some { e with gap_frames := e.gap_frames + 1 } }
      if s.gap_tolerance < e.gap_frames + 1 then commitEvent s1 else s1
    | none => s

/-- `SubtitleAggregator.finalize()`. -/
def finalize (s : AggState) : List SubtitleItem := (commitEvent s).srt_data

/-- Feed a list of `(text, conf, timestamp)` tuples in order. -/
def runAgg (s : AggState) (inputs : List (List Char × ℚ × ℚ)) : AggState :=
  inputs.foldl (fun st t => add_result st t.1 t.2.1 t.2.2) s

/-! ## SRT formatting (`utils.format_timestamp`, `OCRWorker._save_to_file`)
and parsing (`srt_parser.parse_srt`).
`timedelta(seconds=s)` stores `s` rounded half-to-even at microsecond
precision; `int(td.total_seconds())` truncates toward zero;
`td.microseconds` is the floor-modulo remainder; the fields use
Python's floor `//` and `%`.  The `re.findall` scan is modelled as a
leftmost, non-overlapping matcher with a fuel argument (the fuel
`length + 2` always suffices because every match consumes at least one
character). -/

/-- Round half to even (CPython float-to-microseconds rounding). -/
def rndNE (q : ℚ) : ℤ :=
  if q - ⌊q⌋ < 1 / 2 then ⌊q⌋
  else if 1 / 2 < q - ⌊q⌋ then ⌊q⌋ + 1
  else if ⌊q⌋ % 2 = 0 then ⌊q⌋ else ⌊q⌋ + 1

/-- Python `f"{x:02d}"`. -/
def pad2 (x : ℤ) : List Char :=
  if 0 ≤ x then
    (if x.toNat < 10 then '0' :: natToDigits x.toNat else natToDigits x.toNat)
  else '-' :: natToDigits (-x).toNat

/-- Python `f"{n:03d}"` for a nonnegative int. -/
def pad3 (n : ℕ) : List Char :=
  if n < 10 then '0' :: '0' :: natToDigits n
  else if n < 100 then '0' :: natToDigits n
  else natToDigits n

/-- `utils.format_timestamp(seconds)`. -/
def format_timestamp (seconds : ℚ) : List Char :=
  let micro : ℤ := rndNE (seconds * 1000000)
  let total_seconds : ℤ := pyInt ((micro : ℚ) / 1000000)
  let microseconds : ℤ := micro.emod 1000000
  let milliseconds : ℤ := pyInt ((microseconds : ℚ) / 1000)
  pad2 (total_seconds.fdiv 3600) ++ ':' ::
  (pad2 ((total_seconds.emod 3600).fdiv 60) ++ ':' ::
  (pad2 (total_seconds.emod 60) ++ ',' :: pad3 milliseconds.toNat))

/-- One SRT block written by `OCRWorker._save_to_file`:
`f"{id}\n{start} --> {end}\n{text}\n\n"`. -/
def srtBlock (it : SubtitleItem) : List Char :=
  natToDigits it.id ++ '\n' ::
  (format_timestamp it.start ++ ' ' :: '-' :: '-' :: '>' :: ' ' ::
  (format_timestamp it.endt ++ '\n' :: (it.text ++ ['\n', '\n'])))

/-- The whole SRT file written by `OCRWorker._save_to_file`. -/
def formatSrt (items : List SubtitleItem) : List Char :=
  (items.map srtBlock).join

/-- Python `content.replace('\r\n', '\n')`. -/
def replaceCRLF : List Char → List Char
  | '\r' :: '\n' :: rest => '\n' :: replaceCRLF rest
  | c :: rest => c :: replaceCRLF rest
  | [] => []

/-- `content.replace('\r\n', '\n').replace('\r', '\n')`. -/
def normalizeNewlines (l : List Char) : List Char :=
  (replaceCRLF l).map (fun c => if c = '\r' then '\n' else c)

/-- Remove every non-overlapping match of the tag regex `<[^>]+>`
(`tag_pattern.sub('', text)`); fuel `length` suffices. -/
def stripTagsAux : ℕ → List Char → List Char
  | 0, l => l
  | _ + 1, [] => []
  | fuel + 1, '<' :: rest =>
    let mid := rest.takeWhile (fun c => c ≠ '>')
    match rest.drop mid.length with
    | '>' :: after =>
      if mid = [] then '<' :: stripTagsAux fuel rest
      else stripTagsAux fuel after
    | _ => '<' :: stripTagsAux fuel rest
  | fuel + 1, c :: rest => c :: stripTagsAux fuel rest

/-- `tag_pattern.sub('', text)`. -/
def stripTags (l : List Char) : List Char := stripTagsAux l.length l

/-- Match `\d{2}:\d{2}:\d{2},\d{3}` and return `time_to_seconds` of it. -/
def matchTs : List Char → Option (ℚ × List Char)
  | d1 :: d2 :: ':' :: d3 :: d4 :: ':' :: d5 :: d6 :: ',' :: d7 :: d8 :: d9 :: rest =>
    if d1.isDigit ∧ d2.isDigit ∧ d3.isDigit ∧ d4.isDigit ∧ d5.isDigit ∧ d6.isDigit ∧
        d7.isDigit ∧ d8.isDigit ∧ d9.isDigit then
      some ((((10 * (d1.toNat - 48) + (d2.toNat - 48)) * 3600 +
              (10 * (d3.toNat - 48) + (d4.toNat - 48)) * 60 +
              (10 * (d5.toNat - 48) + (d6.toNat - 48)) : ℕ) : ℚ) +
            ((100 * (d7.toNat - 48) + 10 * (d8.toNat - 48) + (d9.toNat - 48) : ℕ) : ℚ) / 1000,
            rest)
    else none
  | _ => none

/-- The text group `((?:(?!\n\n).)*)`: greedy, stops before a blank
line. -/
def takeUntilBlank : List Char → List Char
  | [] => []
  | c :: cs => if c = '\n' ∧ cs.head? = some '\n' then [] else c :: takeUntilBlank cs

/-- One parsed SRT block (the dict built by `parse_srt`; the constant
`conf = 1.0` and `isEdited = True` fields are omitted). -/
structure SrtItem where
  id : ℕ
  start : ℚ
  endt : ℚ
  text : List Char

/-- Try the block regex at the current position (with regex
backtracking resolved: `\d+` must take the maximal digit run). -/
def matchBlock (l : List Char) : Option (SrtItem × List Char) :=
  let ds := l.takeWhile Char.isDigit
  if ds = [] then none else
  match l.drop ds.length with
  | '\n' :: r2 =>
    match matchTs r2 with
    | some (t1, r3) =>
      (match r3 with
       | ' ' :: '-' :: '-' :: '>' :: ' ' :: r4 =>
         (match matchTs r4 with
          | some (t2, r5) =>
            (match r5 with
             | '\n' :: r6 =>
               some (⟨digitsToNat ds, t1, t2, takeUntilBlank r6⟩,
                 r6.drop (takeUntilBlank r6).length)
             | _ => none)
          | none => none)
       | _ => none)
    | none => none
  | _ => none

/-- `re.findall` over the content: leftmost non-overlapping matches. -/
def scanBlocks : ℕ → List Char → List SrtItem
  | 0, _ => []
  | fuel + 1, l =>
    match matchBlock l with
    | some (b, rest) => b :: scanBlocks fuel rest
    | none =>
      match l with
      | [] => []
      | _ :: cs => scanBlocks fuel cs

/-- `srt_parser.parse_srt(content)`. -/
def parse_srt (content : List Char) : List SrtItem :=
  let normalized := normalizeNewlines content
  (scanBlocks (normalized.length + 2) (normalized ++ ['\n', '\n'])).map
    (fun b => ⟨b.id, b.start, b.endt, stripTags (pyStrip b.text)⟩)

/-- A text contains a blank line (`\n\n`). -/
def hasBlank : List Char → Bool
  | [] => false
  | c :: cs => (c = '\n' ∧ cs.head? = some '\n') ∨ hasBlank cs

/-- Timestamps spaced by at least `fd`, continuing from an optional
previous timestamp (the reader emits frames at least one frame apart,
so its timestamps satisfy this with `fd = frame_duration`). -/
def Spaced (fd : ℚ) : Option ℚ → List ℚ → Prop
  | _, [] => True
  | none, x :: rest => Spaced fd (some x) rest
  | some t0, x :: rest => t0 + fd ≤ x ∧ Spaced fd (some x) rest

/-- The last timestamp fed so far (`tl` before the list). -/
def lastTimestamp (tl : Option ℚ) : List ℚ → Option ℚ
  | [] => tl
  | x :: rest => lastTimestamp (some x) rest

/-- The aggregator's run invariant, after the timestamps up to `tl`
have been fed: committed ids are dense `1..N`, each committed item
spans at least one frame, committed items chain without overlap, and
the open event (if any) starts after every committed end and ends by
`tl + frame_duration`. -/
def AggInv (s : AggState) (tl : Option ℚ) : Prop :=
  (s.srt_data.map SubtitleItem.id = List.range' 1 s.srt_data.length) ∧
  (∀ it ∈ s.srt_data, it.start + s.frame_duration ≤ it.endt) ∧
  s.srt_data.Chain' (fun x y => x.endt ≤ y.start) ∧
  (match s.active_event, tl with
   | some e, some tv =>
     (∀ it ∈ s.srt_data, it.endt ≤ e.start) ∧ e.start + s.frame_duration ≤ e.endt ∧
       e.endt ≤ tv + s.frame_duration
   | some _, none => False
   | none, some tv => ∀ it ∈ s.srt_data, it.endt ≤ tv + s.frame_duration
   | none, none => s.srt_data = [])

/-! # Theorems and supporting lemmas -/

/-! ## Lemmas: decimal digit strings -/

theorem digitChar_isDigit {n : ℕ} (h : n < 10) : (digitChar n).isDigit = true := by
  interval_cases n <;> decide

theorem digitChar_toNat {n : ℕ} (h : n < 10) : (digitChar n).toNat = 48 + n := by
  interval_cases n <;> decide

theorem digitsToNat_append_digit (l : List Char) (c : Char) :
    digitsToNat (l ++ [c]) = 10 * digitsToNat l + (c.toNat - 48) := by
  simp [digitsToNat, List.foldl_append]

theorem natToDigitsAux_eq_of_lt : ∀ (f1 f2 n : ℕ), n < f1 → n < f2 →
    natToDigitsAux f1 n = natToDigitsAux f2 n
  | 0, _, n, h1, _ => absurd h1 (Nat.not_lt_zero n)
  | _ + 1, 0, n, _, h2 => absurd h2 (Nat.not_lt_zero n)
  | f1 + 1, f2 + 1, n, h1, h2 => by
    simp only [natToDigitsAux]
    split
    · rfl
    · have hn : 10 ≤ n := by omega
      have hd : n / 10 < n := Nat.div_lt_self (by omega) (by omega)
      rw [natToDigitsAux_eq_of_lt f1 f2 (n / 10) (by omega) (by omega)]

theorem natToDigits_eq_split {n : ℕ} (h : 10 ≤ n) :
    natToDigits n = natToDigits (n / 10) ++ [digitChar (n % 10)] := by
  have hd : n / 10 < n := Nat.div_lt_self (by omega) (by omega)
  have step : natToDigitsAux (n + 1) n = natToDigitsAux n (n / 10) ++ [digitChar (n % 10)] := by
    simp only [natToDigitsAux]
    rw [if_neg (by omega)]
  rw [natToDigits, step, natToDigitsAux_eq_of_lt n (n / 10 + 1) (n / 10) (by omega) (by omega)]
  rfl

theorem natToDigits_ne_nil (n : ℕ) : natToDigits n ≠ [] := by
  by_cases h : n < 10
  · simp [natToDigits, natToDigitsAux, if_pos h]
  · rw [natToDigits_eq_split (by omega)]
    simp

theorem natToDigits_all_digits (n : ℕ) : ∀ c ∈ natToDigits n, c.isDigit = true := by
  induction n using Nat.strong_induction_on with
  | _ n ih =>
    by_cases h : n < 10
    · simp only [natToDigits, natToDigitsAux, if_pos h, List.mem_singleton]
      rintro c rfl
      exact digitChar_isDigit h
    · rw [natToDigits_eq_split (by omega)]
      intro c hc
      rcases List.mem_append.mp hc with hc | hc
      · exact ih (n / 10) (Nat.div_lt_self (by omega) (by omega)) c hc
      · rcases List.mem_singleton.mp hc with rfl
        exact digitChar_isDigit (Nat.mod_lt n (by omega))

theorem digitsToNat_natToDigits (n : ℕ) : digitsToNat (natToDigits n) = n := by
  induction n using Nat.strong_induction_on with
  | _ n ih =>
    by_cases h : n < 10
    · simp only [natToDigits, natToDigitsAux, if_pos h]
      simp [digitsToNat, digitChar_toNat h]
    · rw [natToDigits_eq_split (by omega), digitsToNat_append_digit,
        ih (n / 10) (Nat.div_lt_self (by omega) (by omega)),
        digitChar_toNat (Nat.mod_lt n (by omega))]
      omega

theorem natToDigits_injective : Function.Injective natToDigits := by
  intro m n h
  have := digitsToNat_natToDigits m
  rw [h, digitsToNat_natToDigits] at this
  omega

/-! ## Theorems: C7 (text-width monotonicity) -/

theorem charWeight_nonneg (c : Char) : 0 ≤ charWeight c := by
  unfold charWeight
  split
  · norm_num
  split
  · norm_num
  split
  · norm_num
  split
  · norm_num
  split
  · norm_num
  · norm_num

theorem charWeight_sum_nonneg (text : List Char) :
    0 ≤ (text.map charWeight).sum := by
  induction text with
  | nil => simp
  | cons c cs ih =>
    simp only [List.map_cons, List.sum_cons]
    exact add_nonneg (charWeight_nonneg c) ih

/-- C7, as stated, is false: with a negative `width_multiplier` the
width estimate strictly decreases in the font size.  At `text = "a"`,
`m = -1`, `s1 = 1 ≤ s2 = 2` the source gives `ceil(-0.65) = 0` and
`ceil(-1.3) = -1`. -/
theorem charWeight_a : charWeight 'a' = (0.65 : ℚ) := by
  simp +decide [charWeight]

theorem estimate_text_width_not_monotone :
    ¬ (estimate_text_width ['a'] 1 (-1) ≤ estimate_text_width ['a'] 2 (-1)) := by
  have h1 : estimate_text_width ['a'] 1 (-1) = 0 := by
    simp only [estimate_text_width, List.map_cons, List.map_nil, List.sum_cons, List.sum_nil,
      charWeight_a]
    norm_num [Int.ceil_eq_iff]
  have h2 : estimate_text_width ['a'] 2 (-1) = -1 := by
    simp only [estimate_text_width, List.map_cons, List.map_nil, List.sum_cons, List.sum_nil,
      charWeight_a]
    norm_num [Int.ceil_eq_iff]
  rw [h1, h2]
  norm_num

/-- C7 (amended): for every text and every nonnegative width
multiplier, `estimate_text_width` is monotone in the font size. -/
theorem estimate_text_width_monotone (t : List Char) (s1 s2 : ℤ) (m : ℚ)
    (hm : 0 ≤ m) (hs : s1 ≤ s2) :
    estimate_text_width t s1 m ≤ estimate_text_width t s2 m := by
  unfold estimate_text_width
  split
  · exact le_refl 0
  · apply Int.ceil_le_ceil
    have hw : 0 ≤ (t.map charWeight).sum * m := mul_nonneg (charWeight_sum_nonneg t) hm
    calc (t.map charWeight).sum * (s1 : ℚ) * m
        = (t.map charWeight).sum * m * (s1 : ℚ) := by ring
      _ ≤ (t.map charWeight).sum * m * (s2 : ℚ) := by
          apply mul_le_mul_of_nonneg_left _ hw
          exact_mod_cast hs
      _ = (t.map charWeight).sum * (s2 : ℚ) * m := by ring

/-- Witness for C7 (amended) at `t = "ab"`, `m = 1/2`, `s1 = 3`, `s2 = 5`. -/
theorem estimate_text_width_monotone_witness :
    (0 : ℚ) ≤ 1/2 ∧ (3 : ℤ) ≤ 5 ∧
      estimate_text_width ['a', 'b'] 3 (1/2) ≤ estimate_text_width ['a', 'b'] 5 (1/2) :=
  ⟨by norm_num, by norm_num,
    estimate_text_width_monotone ['a', 'b'] 3 5 (1/2) (by norm_num) (by norm_num)⟩

/-! ## Theorems: C8 (blur ROI clamping) -/

/-- C8, as stated, is false: a `y` setting far below the frame puts the
(zero-height) rectangle corner outside the frame.  With `text = "a"`,
`width = height = 100`, `settings = {y: 1000}` the source returns
`(3, 925, 94, 0)`, and `y + h = 925 > 100 = height`. -/
theorem calculate_blur_roi_not_clamped :
    calculate_blur_roi ['a'] 100 100 { y := some 1000 } = (3, 925, 94, 0) ∧
      ¬ ((925 : ℤ) + 0 ≤ 100) := by
  constructor
  · have hw : estimate_text_width ['a'] 21 1 = 14 := by
      simp only [estimate_text_width, List.map_cons, List.map_nil, List.sum_cons, List.sum_nil,
        charWeight_a]
      norm_num [Int.ceil_eq_iff]
    simp only [calculate_blur_roi, pyInt]
    norm_num [hw, Int.fdiv]
  · norm_num

/-- C8 (amended): the rectangle returned by `calculate_blur_roi` has
nonnegative origin and size, and whenever a side is positive the
rectangle lies inside the frame on that axis (a zero-area rectangle may
have its corner outside the frame). -/
theorem calculate_blur_roi_clamped (text : List Char) (width height : ℤ)
    (settings : BlurRoiSettings) :
    0 ≤ (calculate_blur_roi text width height settings).1 ∧
    0 ≤ (calculate_blur_roi text width height settings).2.1 ∧
    0 ≤ (calculate_blur_roi text width height settings).2.2.1 ∧
    0 ≤ (calculate_blur_roi text width height settings).2.2.2 ∧
    (0 < (calculate_blur_roi text width height settings).2.2.1 →
      (calculate_blur_roi text width height settings).1 +
        (calculate_blur_roi text width height settings).2.2.1 ≤ width) ∧
    (0 < (calculate_blur_roi text width height settings).2.2.2 →
      (calculate_blur_roi text width height settings).2.1 +
        (calculate_blur_roi text width height settings).2.2.2 ≤ height) := by
  have key : ∀ width height left top right bottom : ℤ,
      0 ≤ max 0 left ∧ 0 ≤ max 0 top ∧
      0 ≤ max 0 (min width right - max 0 left) ∧
      0 ≤ max 0 (min height bottom - max 0 top) ∧
      (0 < max 0 (min width right - max 0 left) →
        max 0 left + max 0 (min width right - max 0 left) ≤ width) ∧
      (0 < max 0 (min height bottom - max 0 top) →
        max 0 top + max 0 (min height bottom - max 0 top) ≤ height) := by
    intro width height left top right bottom
    refine ⟨?_, ?_, ?_, ?_, ?_, ?_⟩ <;> omega
  unfold calculate_blur_roi
  split
  · norm_num
  · exact key width height _ _ _ _

/-! ## Theorems: C10 (blur guard) -/

/-- C10: when the ROI width or height is nonpositive or alpha is
nonpositive, `apply_blur_to_frame` returns the frame unchanged, for
every implementation of the image-processing body. -/
theorem apply_blur_to_frame_guard {Frame : Type}
    (pipeline : Frame → ℤ × ℤ × ℤ × ℤ → BlurSettings → ℚ → Frame)
    (frame : Frame) (roi : ℤ × ℤ × ℤ × ℤ) (settings : BlurSettings) (alpha : ℚ)
    (h : roi.2.2.1 ≤ 0 ∨ roi.2.2.2 ≤ 0 ∨ alpha ≤ 0) :
    apply_blur_to_frame pipeline frame roi settings alpha = frame := by
  unfold apply_blur_to_frame
  exact if_pos h

/-- Witness for C10: a pipeline that would rewrite the frame is skipped
on a zero-width ROI. -/
theorem apply_blur_to_frame_guard_witness :
    ((0 : ℤ) ≤ 0 ∨ (5 : ℤ) ≤ 0 ∨ (1 : ℚ) ≤ 0) ∧
      apply_blur_to_frame (fun (f : ℕ) _ _ _ => f + 1) 7 (2, 3, 0, 5) {} 1 = 7 :=
  ⟨Or.inl le_rfl,
    apply_blur_to_frame_guard (fun (f : ℕ) _ _ _ => f + 1) 7 (2, 3, 0, 5) {} 1
      (Or.inl le_rfl)⟩

/-! ## Lemmas: directory listings -/

theorem lookup_writeFile_self (dir : List (List Char × List ℕ)) (name : List Char)
    (data : List ℕ) : (writeFile dir name data).lookup name = some data := by
  induction dir with
  | nil => simp [writeFile, List.lookup_cons]
  | cons p rest ih =>
    rcases p with ⟨n, d⟩
    by_cases hn : n = name
    · subst hn
      simp [writeFile, List.lookup_cons]
    · have hk : (name == n) = false := beq_eq_false_iff_ne.mpr (fun hh => hn hh.symm)
      simp only [writeFile, if_neg hn, List.lookup_cons, hk]
      exact ih

theorem lookup_writeFile_ne (dir : List (List Char × List ℕ)) (name k : List Char)
    (data : List ℕ) (h : k ≠ name) :
    (writeFile dir name data).lookup k = dir.lookup k := by
  induction dir with
  | nil => simp [writeFile, List.lookup_cons, beq_eq_false_iff_ne.mpr h]
  | cons p rest ih =>
    rcases p with ⟨n, d⟩
    by_cases hn : n = name
    · subst hn
      have hk : (k == n) = false := beq_eq_false_iff_ne.mpr h
      simp [writeFile, List.lookup_cons, hk]
    · by_cases hkn : k = n
      · subst hkn
        simp [writeFile, if_neg hn, List.lookup_cons]
      · have hk : (k == n) = false := beq_eq_false_iff_ne.mpr hkn
        simp only [writeFile, if_neg hn, List.lookup_cons, hk]
        exact ih

/-! ## Lemmas and theorems: C4 (upload reassembly) -/

theorem fold_save_lookup (chunks : List (List ℕ)) :
    ∀ (order : List ℕ) (dir : ChunkDir) (i : ℕ),
      (((order.foldl (fun d j => save_chunk d j (chunks.getD j [])) dir).getD []).lookup
          (chunkName i)) =
        if i ∈ order then some (chunks.getD i []) else ((dir.getD []).lookup (chunkName i)) := by
  intro order
  induction order with
  | nil => intro dir i; simp
  | cons j rest ih =>
    intro dir i
    simp only [List.foldl_cons]
    rw [ih (save_chunk dir j (chunks.getD j [])) i]
    by_cases hrest : i ∈ rest
    · rw [if_pos hrest, if_pos (List.mem_cons_of_mem j hrest)]
    · rw [if_neg hrest]
      by_cases hij : i = j
      · subst hij
        simp only [save_chunk, Option.getD_some]
        rw [lookup_writeFile_self, if_pos (List.mem_cons_self i rest)]
      · have hname : chunkName i ≠ chunkName j := by
          intro h
          exact hij (natToDigits_injective (List.append_inj_left' h rfl))
        simp only [save_chunk, Option.getD_some]
        rw [lookup_writeFile_ne _ _ _ _ hname]
        rw [if_neg (by simp [hij, hrest])]

theorem map_getD_range (l : List (List ℕ)) :
    (List.range l.length).map (fun i => l.getD i []) = l := by
  apply List.ext_getElem
  · simp
  · intro n h1 h2
    simp only [List.getElem_map, List.getElem_range]
    exact List.getD_eq_getElem l [] h2

/-- C4: saving every chunk `0 .. N-1` of a partitioned byte stream, in
any order, and then assembling, produces exactly the concatenation of
the chunks in index order and removes the chunk directory. -/
theorem upload_reassembly (chunks : List (List ℕ)) (order : List ℕ)
    (hperm : order.Perm (List.range chunks.length)) :
    (assemble_file (order.foldl (fun d j => save_chunk d j (chunks.getD j [])) none)
        chunks.length).1 = chunks.join ∧
    (assemble_file (order.foldl (fun d j => save_chunk d j (chunks.getD j [])) none)
        chunks.length).2 = none := by
  constructor
  · unfold assemble_file
    simp only
    have hmap : (List.range chunks.length).map
        (fun i => ((((order.foldl (fun d j => save_chunk d j (chunks.getD j [])) none).getD
            []).lookup (chunkName i)).getD [])) =
        (List.range chunks.length).map (fun i => chunks.getD i []) := by
      apply List.map_congr_left
      intro i hi
      have hmem : i ∈ order := hperm.mem_iff.mpr hi
      rw [fold_save_lookup chunks order none i, if_pos hmem]
      rfl
    rw [hmap, map_getD_range]
  · rfl

/-- Witness for C4 with chunks `[[1,2],[3]]` submitted in order `[1,0]`. -/
theorem upload_reassembly_witness :
    ([1, 0] : List ℕ).Perm (List.range ([[1, 2], [3]] : List (List ℕ)).length) ∧
      (assemble_file (([1, 0] : List ℕ).foldl
          (fun d j => save_chunk d j (([[1, 2], [3]] : List (List ℕ)).getD j [])) none)
        ([[1, 2], [3]] : List (List ℕ)).length).1 = ([[1, 2], [3]] : List (List ℕ)).join :=
  ⟨by decide, (upload_reassembly [[1, 2], [3]] [1, 0] (by decide)).1⟩

/-! ## Lemmas and theorems: C5 (upload completeness) -/

/-- C5, as stated, is false: with the directory holding `0.chunk` and a
stray `x.chunk`, `is_upload_complete(id, 2)` returns `True` although the
expected chunk `1.chunk` is absent. -/
theorem is_upload_complete_counterexample :
    is_upload_complete (some [("0.chunk".toList, [7]), ("x.chunk".toList, [8])]) 2 = true ∧
      (([("0.chunk".toList, [7]), ("x.chunk".toList, [8])] :
          List (List Char × List ℕ)).lookup (chunkName 1)) = none := by
  constructor
  · decide
  · decide

theorem chunkName_hasSuffix (i : ℕ) :
    ((".chunk".toList).isSuffixOf (chunkName i)) = true := by
  rw [List.isSuffixOf_iff_suffix]
  exact List.suffix_append (natToDigits i) _

/-- C5 (amended): completion is decided by counting `*.chunk` files, so
the claimed equivalence holds exactly when the directory holds only
chunk files with distinct indices below `total_chunks`; then `True` is
returned iff every expected chunk is present. -/
theorem is_upload_complete_iff_of_chunks (data : ℕ → List ℕ) (S : List ℕ) (N : ℕ)
    (hnd : S.Nodup) (hlt : ∀ i ∈ S, i < N) :
    (is_upload_complete (some (S.map (fun i => (chunkName i, data i)))) N = true ↔
      ∀ i < N, i ∈ S) := by
  have hfilter : ((S.map (fun i => (chunkName i, data i))).filter
      (fun p => (".chunk".toList).isSuffixOf p.1)) = S.map (fun i => (chunkName i, data i)) := by
    apply List.filter_eq_self.mpr
    intro p hp
    rcases List.mem_map.mp hp with ⟨i, _, rfl⟩
    exact chunkName_hasSuffix i
  have hlen : ((S.map (fun i => (chunkName i, data i))).filter
      (fun p => (".chunk".toList).isSuffixOf p.1)).length = S.length := by
    rw [hfilter, List.length_map]
  constructor
  · intro hcomp i hi
    have hN : S.length = N := by
      have := hcomp
      simp only [is_upload_complete, hlen, decide_eq_true_iff] at this
      exact this
    have hsub : S.toFinset ⊆ Finset.range N := by
      intro x hx
      rw [List.mem_toFinset] at hx
      exact Finset.mem_range.mpr (hlt x hx)
    have hcard : (Finset.range N).card ≤ S.toFinset.card := by
      rw [Finset.card_range, List.toFinset_card_of_nodup hnd, hN]
    have := Finset.eq_of_subset_of_card_le hsub hcard
    have hmem : i ∈ S.toFinset := by
      rw [this]
      exact Finset.mem_range.mpr hi
    exact List.mem_toFinset.mp hmem
  · intro hall
    simp only [is_upload_complete, hlen, decide_eq_true_iff]
    have hsub : S.toFinset = Finset.range N := by
      apply Finset.Subset.antisymm
      · intro x hx
        rw [List.mem_toFinset] at hx
        exact Finset.mem_range.mpr (hlt x hx)
      · intro x hx
        rw [List.mem_toFinset]
        exact hall x (Finset.mem_range.mp hx)
    have := List.toFinset_card_of_nodup hnd
    rw [hsub, Finset.card_range] at this
    omega

/-- Witness for C5 (amended) at `S = [1, 0]`, `N = 2`. -/
theorem is_upload_complete_iff_witness :
    ([1, 0] : List ℕ).Nodup ∧ (∀ i ∈ ([1, 0] : List ℕ), i < 2) ∧
      (is_upload_complete
          (some (([1, 0] : List ℕ).map (fun i => (chunkName i, [i])))) 2 = true ↔
        ∀ i < 2, i ∈ ([1, 0] : List ℕ)) :=
  ⟨by decide, by decide, is_upload_complete_iff_of_chunks (fun i => [i]) [1, 0] 2
    (by decide) (by decide)⟩

/-! ## Lemmas and theorems: C6 (OCR result parsing) -/

theorem itemLE_trans (a b c : List (List ℚ) × List Char × ℚ)
    (h1 : itemLE a b = true) (h2 : itemLE b c = true) : itemLE a c = true := by
  simp only [itemLE, decide_eq_true_iff] at h1 h2 ⊢
  exact le_trans h1 h2

theorem itemLE_total (a b : List (List ℚ) × List Char × ℚ) :
    (itemLE a b || itemLE b a) = true := by
  simp only [itemLE, Bool.or_eq_true, decide_eq_true_iff]
  exact le_total _ _

/-- C6: `parse_results` returns `("", 0)` when there is no result or no
surviving box; otherwise, with every surviving box well formed, it
returns the surviving texts joined by single spaces in an order that is
a permutation of the survivors, sorted by the vertical-midpoint key and
stable on equal keys, with `avg_conf` the arithmetic mean of the
surviving scores; malformed box geometry skips the sort but still
produces the joined survivor texts and their mean (parsing never
fails). -/
theorem parse_results_spec (d : OcrData) (conf_thresh : ℚ) :
    (parse_results none conf_thresh = ([], 0)) ∧
    ((validItems d conf_thresh = [] ∨ d.rec_texts = []) →
      parse_results (some d) conf_thresh = ([], 0)) ∧
    (((validItems d conf_thresh).mergeSort itemLE).Perm (validItems d conf_thresh)) ∧
    (((validItems d conf_thresh).all (fun it => (boxKey it.1).isSome)) = true →
      List.Pairwise (fun x y => (boxKey x.1).getD 0 ≤ (boxKey y.1).getD 0)
        ((validItems d conf_thresh).mergeSort itemLE)) ∧
    (∀ x y, List.Sublist [x, y] (validItems d conf_thresh) → boxKey x.1 = boxKey y.1 →
      List.Sublist [x, y] ((validItems d conf_thresh).mergeSort itemLE)) ∧
    (d.rec_texts ≠ [] → validItems d conf_thresh ≠ [] →
      ((validItems d conf_thresh).all (fun it => (boxKey it.1).isSome)) = true →
      parse_results (some d) conf_thresh =
        (List.intercalate [' ']
            (((validItems d conf_thresh).mergeSort itemLE).map (fun it => it.2.1)),
          ((validItems d conf_thresh).map (fun it => it.2.2)).sum /
            (validItems d conf_thresh).length)) ∧
    (d.rec_texts ≠ [] → validItems d conf_thresh ≠ [] →
      ((validItems d conf_thresh).all (fun it => (boxKey it.1).isSome)) = false →
      parse_results (some d) conf_thresh =
        (List.intercalate [' '] ((validItems d conf_thresh).map (fun it => it.2.1)),
          ((validItems d conf_thresh).map (fun it => it.2.2)).sum /
            (validItems d conf_thresh).length)) := by
  refine ⟨rfl, ?_, List.mergeSort_perm _ _, ?_, ?_, ?_, ?_⟩
  · rintro (hv | ht)
    · by_cases ht : d.rec_texts = []
      · simp [parse_results, ht]
      · simp [parse_results, ht, hv]
    · simp [parse_results, ht]
  · intro hall
    have := List.sorted_mergeSort itemLE_trans itemLE_total (validItems d conf_thresh)
    apply this.imp
    intro x y h
    simpa [itemLE, decide_eq_true_iff] using h
  · intro x y hsub hkey
    apply List.sublist_mergeSort itemLE_trans itemLE_total _ hsub
    constructor
    · intro b hb
      rcases List.mem_singleton.mp hb with rfl
      simp [itemLE, hkey]
    · simp
  · intro ht hv hall
    have hlen : ((validItems d conf_thresh).mergeSort itemLE).length =
        (validItems d conf_thresh).length := (List.mergeSort_perm _ _).length_eq
    have hsum : (((validItems d conf_thresh).mergeSort itemLE).map
          (fun it : List (List ℚ) × List Char × ℚ => it.2.2)).sum =
        ((validItems d conf_thresh).map
          (fun it : List (List ℚ) × List Char × ℚ => it.2.2)).sum :=
      ((List.mergeSort_perm (validItems d conf_thresh) itemLE).map
        (fun it : List (List ℚ) × List Char × ℚ => it.2.2)).sum_eq
    have hne : ((validItems d conf_thresh).mergeSort itemLE).map
        (fun it : List (List ℚ) × List Char × ℚ => it.2.2) ≠ [] := by
      intro hcon
      apply hv
      have := congrArg List.length hcon
      simp only [List.length_map, hlen, List.length_nil] at this
      exact List.length_eq_zero.mp this
    simp only [parse_results, if_neg ht, if_neg hv, hall, if_true, if_neg hne]
    rw [hsum]
    simp only [List.length_map, hlen]
  · intro ht hv hall
    have hne : (validItems d conf_thresh).map
        (fun it : List (List ℚ) × List Char × ℚ => it.2.2) ≠ [] := by
      intro hcon
      apply hv
      have := congrArg List.length hcon
      simp only [List.length_map, List.length_nil] at this
      exact List.length_eq_zero.mp this
    simp only [parse_results, if_neg ht, if_neg hv, hall]
    simp only [Bool.false_eq_true, if_neg (by simp : ¬False), if_neg hne]
    simp only [List.length_map]

/-! ## Lemmas: `SequenceMatcher` on two equal strings
Goal: `ratio(t, t) = 1`, hence `is_similar t t 0.6 = true` for `t ≠ ""`.
The argument: in the `j2len` main loop on equal strings, the best block
always sits on the diagonal (an off-diagonal chain is never longer than
the diagonal chain that its own character window carries, and that
diagonal chain is scanned no later), the four extension loops keep a
diagonal block diagonal and make it nonempty on a nonempty window, and
the block recursion then covers the whole string. -/

theorem matchAt_diag_right {a : List Char} {i j : ℕ} (h : matchAt a a i j = true) :
    matchAt a a j j = true := by
  unfold matchAt at h ⊢
  cases hi : a.get? i with
  | none => rw [hi] at h; cases a.get? j <;> simp at h
  | some ca =>
    cases hj : a.get? j with
    | none => rw [hi, hj] at h; simp at h
    | some cb =>
      rw [hi, hj] at h
      simp only [Bool.and_eq_true, decide_eq_true_iff] at h ⊢
      exact ⟨trivial, h.2⟩

theorem matchAt_diag_left {a : List Char} {i j : ℕ} (h : matchAt a a i j = true) :
    matchAt a a i i = true := by
  unfold matchAt at h ⊢
  cases hi : a.get? i with
  | none => rw [hi] at h; cases a.get? j <;> simp at h
  | some ca =>
    cases hj : a.get? j with
    | none => rw [hi, hj] at h; simp at h
    | some cb =>
      rw [hi, hj] at h
      simp only [Bool.and_eq_true, decide_eq_true_iff] at h ⊢
      rcases h with ⟨heq, hjunk⟩
      subst heq
      exact ⟨trivial, hjunk⟩

theorem runEnd_diag_pos {a : List Char} {lo j : ℕ} (hlo : lo ≤ j)
    (hm : matchAt a a j j = true) : 1 ≤ runEnd a a lo lo j j := by
  cases j with
  | zero =>
    have : lo = 0 := Nat.le_zero.mp hlo
    subst this
    simp [runEnd, hm]
  | succ m =>
    simp only [runEnd, hlo, hm, and_true, le_refl, true_and, if_pos]
    split <;> omega

theorem runEnd_bounds {a b : List Char} (alo blo : ℕ) : ∀ i j,
    runEnd a b alo blo i j = 0 ∨
    (alo ≤ i ∧ blo ≤ j ∧ alo + runEnd a b alo blo i j ≤ i + 1 ∧
      blo + runEnd a b alo blo i j ≤ j + 1) := by
  intro i
  induction i with
  | zero =>
    intro j
    simp only [runEnd]
    split
    · rename_i hc
      right
      omega
    · left; rfl
  | succ i ih =>
    intro j
    simp only [runEnd]
    split
    · rename_i hc
      split
      · right; omega
      · rename_i hnb
        rcases ih (j - 1) with h0 | ⟨h1, h2, h3, h4⟩
        · rw [h0]; right; omega
        · right
          push_neg at hnb
          omega
    · left; rfl

theorem runEnd_le_diag_j {a : List Char} (lo : ℕ) : ∀ i j,
    runEnd a a lo lo i j ≤ runEnd a a lo lo j j := by
  intro i
  induction i with
  | zero =>
    intro j
    simp only [runEnd]
    split
    · rename_i hc
      exact runEnd_diag_pos hc.2.1 (matchAt_diag_right hc.2.2)
    · exact Nat.zero_le _
  | succ i ih =>
    intro j
    by_cases hc : lo ≤ i + 1 ∧ lo ≤ j ∧ matchAt a a (i + 1) j = true
    · have hdm : matchAt a a j j = true := matchAt_diag_right hc.2.2
      by_cases hb : i + 1 = lo ∨ j = lo
      · have h1 : runEnd a a lo lo (i + 1) j = 1 := by
          simp only [runEnd, if_pos hc, if_pos hb]
        rw [h1]
        exact runEnd_diag_pos hc.2.1 hdm
      · push_neg at hb
        have hj1 : 1 ≤ j := by omega
        obtain ⟨m, rfl⟩ : ∃ m, j = m + 1 := ⟨j - 1, by omega⟩
        have h1 : runEnd a a lo lo (i + 1) (m + 1) = runEnd a a lo lo i m + 1 := by
          simp only [runEnd, if_pos hc, if_neg (not_or.mpr hb), Nat.add_sub_cancel]
        have h2 : runEnd a a lo lo (m + 1) (m + 1) = runEnd a a lo lo m m + 1 := by
          have hcd : lo ≤ m + 1 ∧ lo ≤ m + 1 ∧ matchAt a a (m + 1) (m + 1) = true :=
            ⟨hc.2.1, hc.2.1, hdm⟩
          have hbd : ¬(m + 1 = lo ∨ m + 1 = lo) := by
            rw [or_self]
            exact hb.2
          simp only [runEnd, if_pos hcd, if_neg hbd, Nat.add_sub_cancel]
        rw [h1, h2]
        have := ih m
        omega
    · have h0 : runEnd a a lo lo (i + 1) j = 0 := by
        simp only [runEnd, if_neg hc]
      rw [h0]
      exact Nat.zero_le _

theorem runEnd_le_diag_i {a : List Char} (lo : ℕ) : ∀ i j,
    runEnd a a lo lo i j ≤ runEnd a a lo lo i i := by
  intro i
  induction i with
  | zero =>
    intro j
    simp only [runEnd]
    split
    · rename_i hc
      have := matchAt_diag_left hc.2.2
      have hz : lo = 0 := hc.1
      simp [hz, this]
    · exact Nat.zero_le _
  | succ i ih =>
    intro j
    by_cases hc : lo ≤ i + 1 ∧ lo ≤ j ∧ matchAt a a (i + 1) j = true
    · have hdm : matchAt a a (i + 1) (i + 1) = true := matchAt_diag_left hc.2.2
      by_cases hb : i + 1 = lo ∨ j = lo
      · have h1 : runEnd a a lo lo (i + 1) j = 1 := by
          simp only [runEnd, if_pos hc, if_pos hb]
        rw [h1]
        exact runEnd_diag_pos hc.1 hdm
      · push_neg at hb
        obtain ⟨m, rfl⟩ : ∃ m, j = m + 1 := ⟨j - 1, by omega⟩
        have h1 : runEnd a a lo lo (i + 1) (m + 1) = runEnd a a lo lo i m + 1 := by
          simp only [runEnd, if_pos hc, if_neg (not_or.mpr hb), Nat.add_sub_cancel]
        have h2 : runEnd a a lo lo (i + 1) (i + 1) = runEnd a a lo lo i i + 1 := by
          have hcd : lo ≤ i + 1 ∧ lo ≤ i + 1 ∧ matchAt a a (i + 1) (i + 1) = true :=
            ⟨hc.1, hc.1, hdm⟩
          have hbd : ¬(i + 1 = lo ∨ i + 1 = lo) := by
            rw [or_self]
            exact hb.1
          simp only [runEnd, if_pos hcd, if_neg hbd, Nat.add_sub_cancel]
        rw [h1, h2]
        have := ih m
        omega
    · have h0 : runEnd a a lo lo (i + 1) j = 0 := by
        simp only [runEnd, if_neg hc]
      rw [h0]
      exact Nat.zero_le _

theorem foldl_flmStep_no_update {a b : List Char} (alo blo i : ℕ) :
    ∀ (js : List ℕ) (acc : ℕ × ℕ × ℕ),
      (∀ j ∈ js, runEnd a b alo blo i j ≤ acc.2.2) →
      js.foldl (flmStep a b alo blo i) acc = acc := by
  intro js
  induction js with
  | nil => intro acc _; rfl
  | cons j rest ih =>
    intro acc h
    simp only [List.foldl_cons]
    have hj := h j (List.mem_cons_self j rest)
    rw [show flmStep a b alo blo i acc j = acc from by
      simp only [flmStep]
      rw [if_neg (by omega)]]
    exact ih acc (fun x hx => h x (List.mem_cons_of_mem j hx))

theorem flmRow_self (a : List Char) (lo hi r : ℕ) (best : ℕ × ℕ × ℕ)
    (hr1 : lo ≤ r) (hr2 : r < hi)
    (hdiag : best.1 = best.2.1) (hblo : lo ≤ best.1) (hbhi : best.1 + best.2.2 ≤ hi)
    (hzero : best.2.2 = 0 → best = (lo, lo, 0))
    (hprev : ∀ p, lo ≤ p → p < r → runEnd a a lo lo p p ≤ best.2.2) :
    (flmRow a a lo lo hi r best).1 = (flmRow a a lo lo hi r best).2.1 ∧
    lo ≤ (flmRow a a lo lo hi r best).1 ∧
    (flmRow a a lo lo hi r best).1 + (flmRow a a lo lo hi r best).2.2 ≤ hi ∧
    ((flmRow a a lo lo hi r best).2.2 = 0 → flmRow a a lo lo hi r best = (lo, lo, 0)) ∧
    (∀ p, lo ≤ p → p < r + 1 → runEnd a a lo lo p p ≤ (flmRow a a lo lo hi r best).2.2) ∧
    best.2.2 ≤ (flmRow a a lo lo hi r best).2.2 := by
  have hsplit1 : List.range' lo (hi - lo) =
      List.range' lo (r - lo) ++ List.range' r (hi - r) := by
    have hgen := List.range'_append lo (r - lo) (hi - r) 1
    simp only [one_mul] at hgen
    rw [show lo + (r - lo) = r from by omega] at hgen
    have heq : hi - lo = hi - r + (r - lo) := by omega
    rw [heq]
    exact hgen.symm
  have hsplit2 : List.range' r (hi - r) = r :: List.range' (r + 1) (hi - r - 1) := by
    have h2 : hi - r = (hi - r - 1) + 1 := by omega
    conv_lhs => rw [h2]
    rfl
  have hrow : flmRow a a lo lo hi r best =
      (List.range' (r + 1) (hi - r - 1)).foldl (flmStep a a lo lo r)
        (flmStep a a lo lo r best r) := by
    rw [flmRow, hsplit1, List.foldl_append, hsplit2]
    rw [foldl_flmStep_no_update lo lo r (List.range' lo (r - lo)) best ?h1]
    · simp only [List.foldl_cons]
    · intro j hj
      have hmem := List.mem_range'_1.mp hj
      calc runEnd a a lo lo r j ≤ runEnd a a lo lo j j := runEnd_le_diag_j lo r j
        _ ≤ best.2.2 := hprev j hmem.1 (by omega)
  rw [hrow]
  by_cases hlt : best.2.2 < runEnd a a lo lo r r
  · have hstep : flmStep a a lo lo r best r =
        (r + 1 - runEnd a a lo lo r r, r + 1 - runEnd a a lo lo r r, runEnd a a lo lo r r) := by
      simp only [flmStep]
      rw [if_pos hlt]
    have htail : (List.range' (r + 1) (hi - r - 1)).foldl (flmStep a a lo lo r)
        (r + 1 - runEnd a a lo lo r r, r + 1 - runEnd a a lo lo r r, runEnd a a lo lo r r) =
        (r + 1 - runEnd a a lo lo r r, r + 1 - runEnd a a lo lo r r, runEnd a a lo lo r r) := by
      apply foldl_flmStep_no_update
      intro j _
      exact runEnd_le_diag_i lo r j
    rw [hstep, htail]
    dsimp only
    rcases @runEnd_bounds a a lo lo r r with h0 | ⟨hb1, hb2, hb3, hb4⟩
    · omega
    · refine ⟨rfl, by omega, by omega, fun h => absurd h (by omega), ?_, by omega⟩
      intro p hp1 hp2
      rcases Nat.lt_succ_iff_lt_or_eq.mp hp2 with hpr | rfl
      · have := hprev p hp1 hpr
        omega
      · omega
  · have hstep : flmStep a a lo lo r best r = best := by
      simp only [flmStep]
      rw [if_neg hlt]
    have htail : (List.range' (r + 1) (hi - r - 1)).foldl (flmStep a a lo lo r) best = best := by
      apply foldl_flmStep_no_update
      intro j _
      calc runEnd a a lo lo r j ≤ runEnd a a lo lo r r := runEnd_le_diag_i lo r j
        _ ≤ best.2.2 := by omega
    rw [hstep, htail]
    refine ⟨hdiag, hblo, hbhi, hzero, ?_, le_refl _⟩
    intro p hp1 hp2
    rcases Nat.lt_succ_iff_lt_or_eq.mp hp2 with hpr | rfl
    · exact hprev p hp1 hpr
    · omega

theorem flmMainGo (a : List Char) (lo hi : ℕ) : ∀ n, lo + n ≤ hi →
    ((List.range' lo n).foldl (fun acc i => flmRow a a lo lo hi i acc) (lo, lo, 0)).1 =
      ((List.range' lo n).foldl (fun acc i => flmRow a a lo lo hi i acc) (lo, lo, 0)).2.1 ∧
    lo ≤ ((List.range' lo n).foldl (fun acc i => flmRow a a lo lo hi i acc) (lo, lo, 0)).1 ∧
    ((List.range' lo n).foldl (fun acc i => flmRow a a lo lo hi i acc) (lo, lo, 0)).1 +
      ((List.range' lo n).foldl (fun acc i => flmRow a a lo lo hi i acc) (lo, lo, 0)).2.2 ≤ hi ∧
    (((List.range' lo n).foldl (fun acc i => flmRow a a lo lo hi i acc) (lo, lo, 0)).2.2 = 0 →
      (List.range' lo n).foldl (fun acc i => flmRow a a lo lo hi i acc) (lo, lo, 0) =
        (lo, lo, 0)) ∧
    (∀ p, lo ≤ p → p < lo + n →
      runEnd a a lo lo p p ≤
        ((List.range' lo n).foldl (fun acc i => flmRow a a lo lo hi i acc) (lo, lo, 0)).2.2) := by
  intro n
  induction n with
  | zero =>
    intro hb
    have hred : (List.range' lo 0).foldl (fun acc i => flmRow a a lo lo hi i acc) (lo, lo, 0) =
        ((lo, lo, 0) : ℕ × ℕ × ℕ) := rfl
    rw [hred]
    refine ⟨rfl, le_refl lo, by show lo + 0 ≤ hi; omega, fun _ => rfl, ?_⟩
    intro p hp1 hp2
    omega
  | succ n ih =>
    intro hb
    have hb' : lo + n ≤ hi := by omega
    obtain ⟨ih1, ih2, ih3, ih4, ih5⟩ := ih hb'
    rw [List.range'_1_concat, List.foldl_append, List.foldl_cons, List.foldl_nil]
    obtain ⟨c1, c2, c3, c4, c5, _⟩ := flmRow_self a lo hi (lo + n)
      ((List.range' lo n).foldl (fun acc i => flmRow a a lo lo hi i acc) (lo, lo, 0))
      (by omega) (by omega) ih1 ih2 ih3 ih4 ih5
    exact ⟨c1, c2, c3, c4, fun p hp1 hp2 => c5 p hp1 (by omega)⟩

theorem flmMain_self (a : List Char) (lo hi : ℕ) (h : lo ≤ hi) :
    (flmMain a a lo hi lo hi).1 = (flmMain a a lo hi lo hi).2.1 ∧
    lo ≤ (flmMain a a lo hi lo hi).1 ∧
    (flmMain a a lo hi lo hi).1 + (flmMain a a lo hi lo hi).2.2 ≤ hi ∧
    ((flmMain a a lo hi lo hi).2.2 = 0 → flmMain a a lo hi lo hi = (lo, lo, 0)) := by
  have := flmMainGo a lo hi (hi - lo) (by omega)
  rw [flmMain]
  exact ⟨this.1, this.2.1, this.2.2.1, this.2.2.2.1⟩

theorem extendLeft_self (a : List Char) (lo : ℕ) (w : Bool) : ∀ (fuel bi bj bs : ℕ),
    bi = bj → lo ≤ bi →
    (extendLeft a a lo lo w fuel (bi, bj, bs)).1 = (extendLeft a a lo lo w fuel (bi, bj, bs)).2.1 ∧
    lo ≤ (extendLeft a a lo lo w fuel (bi, bj, bs)).1 ∧
    (extendLeft a a lo lo w fuel (bi, bj, bs)).1 +
      (extendLeft a a lo lo w fuel (bi, bj, bs)).2.2 = bi + bs ∧
    bs ≤ (extendLeft a a lo lo w fuel (bi, bj, bs)).2.2 := by
  intro fuel
  induction fuel with
  | zero =>
    intro bi bj bs hd hlo
    subst hd
    exact ⟨rfl, hlo, rfl, le_refl bs⟩
  | succ fuel ih =>
    intro bi bj bs hd hlo
    subst hd
    simp only [extendLeft]
    split
    · rename_i hc
      obtain ⟨r1, r2, r3, r4⟩ := ih (bi - 1) (bi - 1) (bs + 1) rfl (by omega)
      exact ⟨r1, r2, by omega, by omega⟩
    · exact ⟨rfl, hlo, rfl, le_refl bs⟩

theorem extendRight_self (a : List Char) (hi : ℕ) (w : Bool) : ∀ (fuel bi bj bs : ℕ),
    bi = bj →
    (extendRight a a hi hi w fuel (bi, bj, bs)).1 = bi ∧
    (extendRight a a hi hi w fuel (bi, bj, bs)).2.1 = bj ∧
    bs ≤ (extendRight a a hi hi w fuel (bi, bj, bs)).2.2 ∧
    (bi + bs ≤ hi → bi + (extendRight a a hi hi w fuel (bi, bj, bs)).2.2 ≤ hi) := by
  intro fuel
  induction fuel with
  | zero =>
    intro bi bj bs hd
    exact ⟨rfl, rfl, le_refl bs, fun h => h⟩
  | succ fuel ih =>
    intro bi bj bs hd
    subst hd
    simp only [extendRight]
    split
    · rename_i hc
      obtain ⟨r1, r2, r3, r4⟩ := ih bi bi (bs + 1) rfl
      exact ⟨r1, r2, by omega, fun _ => r4 (by omega)⟩
    · exact ⟨rfl, rfl, le_refl bs, fun h => h⟩

theorem extendLeft_stuck (a : List Char) (lo : ℕ) (w : Bool) (fuel bs : ℕ) :
    extendLeft a a lo lo w fuel (lo, lo, bs) = (lo, lo, bs) := by
  cases fuel with
  | zero => rfl
  | succ fuel =>
    simp only [extendLeft]
    rw [if_neg (by omega)]

theorem extendRight_pos (a : List Char) (lo hi : ℕ) (w : Bool) (hlh : lo < hi)
    (hw : junkB a (a.getD lo ' ') = w) :
    1 ≤ (extendRight a a hi hi w (hi - lo) (lo, lo, 0)).2.2 := by
  obtain ⟨f, hf⟩ : ∃ f, hi - lo = f + 1 := ⟨hi - lo - 1, by omega⟩
  rw [hf]
  simp only [extendRight]
  have hcond : lo + 0 < hi ∧ lo + 0 < hi ∧ junkB a (a.getD (lo + 0) ' ') = w ∧ True :=
    ⟨by omega, by omega, by simpa using hw, trivial⟩
  rw [if_pos hcond]
  exact (extendRight_self a hi w f lo lo 1 rfl).2.2.1

theorem extendRight_stuck_junk (a : List Char) (b1 hi : ℕ) (fuel : ℕ)
    (hjt : junkB a (a.getD b1 ' ') = true) :
    extendRight a a hi hi false fuel ((b1 : ℕ), (b1 : ℕ), (0 : ℕ)) = (b1, b1, 0) := by
  cases fuel with
  | zero => rfl
  | succ f =>
    simp only [extendRight]
    rw [if_neg (by
      intro hcond
      have := hcond.2.2.1
      rw [show b1 + 0 = b1 from rfl, hjt] at this
      simp at this)]

theorem extendLeft_self_p (a : List Char) (lo : ℕ) (w : Bool) (fuel : ℕ) (p : ℕ × ℕ × ℕ)
    (hd : p.1 = p.2.1) (hlo : lo ≤ p.1) :
    (extendLeft a a lo lo w fuel p).1 = (extendLeft a a lo lo w fuel p).2.1 ∧
    lo ≤ (extendLeft a a lo lo w fuel p).1 ∧
    (extendLeft a a lo lo w fuel p).1 + (extendLeft a a lo lo w fuel p).2.2 = p.1 + p.2.2 ∧
    p.2.2 ≤ (extendLeft a a lo lo w fuel p).2.2 := by
  rcases p with ⟨bi, bj, bs⟩
  exact extendLeft_self a lo w fuel bi bj bs hd hlo

theorem extendRight_self_p (a : List Char) (hi : ℕ) (w : Bool) (fuel : ℕ) (p : ℕ × ℕ × ℕ)
    (hd : p.1 = p.2.1) :
    (extendRight a a hi hi w fuel p).1 = p.1 ∧
    (extendRight a a hi hi w fuel p).2.1 = p.2.1 ∧
    p.2.2 ≤ (extendRight a a hi hi w fuel p).2.2 ∧
    (p.1 + p.2.2 ≤ hi → p.1 + (extendRight a a hi hi w fuel p).2.2 ≤ hi) := by
  rcases p with ⟨bi, bj, bs⟩
  exact extendRight_self a hi w fuel bi bj bs hd

theorem find_longest_match_self (a : List Char) (lo hi : ℕ) (hlh : lo ≤ hi) :
    (find_longest_match a a lo hi lo hi).1 = (find_longest_match a a lo hi lo hi).2.1 ∧
    lo ≤ (find_longest_match a a lo hi lo hi).1 ∧
    (find_longest_match a a lo hi lo hi).1 + (find_longest_match a a lo hi lo hi).2.2 ≤ hi ∧
    (lo < hi → 1 ≤ (find_longest_match a a lo hi lo hi).2.2) := by
  obtain ⟨P0d, P0lo, P0hi, P0z⟩ := flmMain_self a lo hi hlh
  have P1 := extendLeft_self_p a lo false (flmMain a a lo hi lo hi).1
    (flmMain a a lo hi lo hi) P0d P0lo
  set T1 := extendLeft a a lo lo false (flmMain a a lo hi lo hi).1
    (flmMain a a lo hi lo hi) with hT1
  obtain ⟨P1d, P1lo, P1sum, P1mono⟩ := P1
  have P2 := extendRight_self_p a hi false (hi - (T1.1 + T1.2.2)) T1 P1d
  set T2 := extendRight a a hi hi false (hi - (T1.1 + T1.2.2)) T1 with hT2
  obtain ⟨P2i, P2j, P2mono, P2b⟩ := P2
  have P2d : T2.1 = T2.2.1 := by rw [P2i, P2j, P1d]
  have P2lo : lo ≤ T2.1 := by rw [P2i]; exact P1lo
  have P3 := extendLeft_self_p a lo true T2.1 T2 P2d P2lo
  set T3 := extendLeft a a lo lo true T2.1 T2 with hT3
  obtain ⟨P3d, P3lo, P3sum, P3mono⟩ := P3
  have P4 := extendRight_self_p a hi true (hi - (T3.1 + T3.2.2)) T3 P3d
  set T4 := extendRight a a hi hi true (hi - (T3.1 + T3.2.2)) T3 with hT4
  obtain ⟨P4i, P4j, P4mono, P4b⟩ := P4
  have hfl : find_longest_match a a lo hi lo hi = T4 := by
    rw [hT4, hT3, hT2, hT1]
    rfl
  rw [hfl]
  have hbound3 : T3.1 + T3.2.2 ≤ hi := by
    have h1 : T1.1 + T1.2.2 ≤ hi := by
      rw [P1sum]
      exact P0hi
    have h2 := P2b h1
    omega
  have hO1 : T4.1 = T3.1 := P4i
  refine ⟨by rw [P4i, P4j, P3d], by rw [P4i]; exact P3lo, ?_, ?_⟩
  · rw [P4i]
    exact P4b hbound3
  · intro hlt
    by_cases hz : (flmMain a a lo hi lo hi).2.2 = 0
    · have h0 : flmMain a a lo hi lo hi = (lo, lo, 0) := P0z hz
      have h1 : T1 = ((lo : ℕ), (lo : ℕ), (0 : ℕ)) := by
        rw [hT1, h0]
        exact extendLeft_stuck a lo false lo 0
      by_cases hj : junkB a (a.getD lo ' ') = false
      · have hp : 1 ≤ T2.2.2 := by
          rw [hT2, h1]
          have := extendRight_pos a lo hi false hlt hj
          simpa using this
        omega
      · have hjt : junkB a (a.getD lo ' ') = true := by
          cases hjv : junkB a (a.getD lo ' ')
          · exact absurd hjv hj
          · rfl
        have h2 : T2 = ((lo : ℕ), (lo : ℕ), (0 : ℕ)) := by
          rw [hT2, h1]
          exact extendRight_stuck_junk a lo hi _ hjt
        have h3 : T3 = ((lo : ℕ), (lo : ℕ), (0 : ℕ)) := by
          rw [hT3, h2]
          exact extendLeft_stuck a lo true lo 0
        have hp : 1 ≤ T4.2.2 := by
          rw [hT4, h3]
          have := extendRight_pos a lo hi true hlt hjt
          simpa using this
        exact hp
    · have h1 : 1 ≤ (flmMain a a lo hi lo hi).2.2 := by omega
      omega

theorem matchingTotalAux_self (a : List Char) : ∀ (fuel lo hi : ℕ), lo ≤ hi →
    2 * (hi - lo) < fuel → matchingTotalAux a a fuel lo hi lo hi = hi - lo := by
  intro fuel
  induction fuel with
  | zero =>
    intro lo hi h1 h2
    omega
  | succ fuel ih =>
    intro lo hi h1 h2
    obtain ⟨hd, hlo, hhi, hpos⟩ := find_longest_match_self a lo hi h1
    rcases hM : find_longest_match a a lo hi lo hi with ⟨i, j, k⟩
    rw [hM] at hd hlo hhi hpos
    dsimp only at hd hlo hhi hpos
    subst hd
    simp only [matchingTotalAux, hM]
    by_cases hk : k = 0
    · rw [if_pos hk]
      have hnlt : ¬ lo < hi := fun hlt => by have := hpos hlt; omega
      omega
    · rw [if_neg hk]
      have hk1 : 1 ≤ k := by omega
      have hleftv : (if lo < i ∧ lo < i then matchingTotalAux a a fuel lo i lo i else 0) =
          i - lo := by
        by_cases hleft : lo < i
        · rw [if_pos ⟨hleft, hleft⟩]
          exact ih lo i (by omega) (by omega)
        · rw [if_neg (by tauto)]
          omega
      have hrightv : (if i + k < hi ∧ i + k < hi then
          matchingTotalAux a a fuel (i + k) hi (i + k) hi else 0) = hi - (i + k) := by
        by_cases hright : i + k < hi
        · rw [if_pos ⟨hright, hright⟩]
          exact ih (i + k) hi (by omega) (by omega)
        · rw [if_neg (by tauto)]
          omega
      rw [hleftv, hrightv]
      omega

theorem matchingTotal_self (a : List Char) : matchingTotal a a = a.length := by
  rw [matchingTotal]
  have := matchingTotalAux_self a (a.length + a.length + 1) 0 a.length (by omega) (by omega)
  simpa using this

theorem ratioQ_self (t : List Char) (ht : t ≠ []) : ratioQ t t = 1 := by
  have hn : 1 ≤ t.length := by
    cases t with
    | nil => exact absurd rfl ht
    | cons c cs => simp
  rw [ratioQ, if_neg (by omega), matchingTotal_self]
  have hne : ((t.length : ℚ) + (t.length : ℚ)) ≠ 0 := by
    have : (1 : ℚ) ≤ (t.length : ℚ) := by exact_mod_cast hn
    nlinarith
  rw [div_eq_one_iff_eq hne]
  ring

/-- For every non-empty text, `is_similar(t, t, 0.6)` is `True`:
`difflib`'s ratio of a string with itself is `1`, including under the
autojunk heuristic. -/
theorem is_similar_self (t : List Char) (ht : t ≠ []) : is_similar t t (0.6 : ℚ) = true := by
  rw [is_similar, if_neg (by simp [ht]), decide_eq_true_iff, ratioQ_self t ht]
  norm_num

/-! ## Lemmas and theorems: C3 (similarity idempotence) -/

theorem add_result_extend_same (t : List Char) (conf mc fd : ℚ) (g : ℕ)
    (ht : t ≠ []) (hconf : mc ≤ conf) (start endv x : ℚ) :
    add_result { srt_data := [], active_event := some ⟨t, start, endv, conf, 0⟩,
                 min_conf := mc, gap_tolerance := g, frame_duration := fd } t conf x =
      { srt_data := [], active_event := some ⟨t, start, x + fd, conf, 0⟩,
        min_conf := mc, gap_tolerance := g, frame_duration := fd } := by
  simp only [add_result]
  rw [if_pos ⟨ht, hconf⟩]
  simp only [is_similar_self t ht, if_true]
  simp only [SubtitleEvent.extend]
  rw [if_neg (by simp)]

theorem runAgg_extend_all (t : List Char) (conf mc fd : ℚ) (g : ℕ)
    (ht : t ≠ []) (hconf : mc ≤ conf) :
    ∀ (ts : List ℚ) (start endv : ℚ),
      runAgg { srt_data := [], active_event := some ⟨t, start, endv, conf, 0⟩,
               min_conf := mc, gap_tolerance := g, frame_duration := fd }
        (ts.map (fun x => (t, conf, x))) =
      { srt_data := [], active_event :=
          some ⟨t, start, ts.foldl (fun _ x => x + fd) endv, conf, 0⟩,
        min_conf := mc, gap_tolerance := g, frame_duration := fd } := by
  intro ts
  induction ts with
  | nil => intro start endv; rfl
  | cons x rest ih =>
    intro start endv
    simp only [List.map_cons, runAgg, List.foldl_cons]
    have hstep := add_result_extend_same t conf mc fd g ht hconf start endv x
    rw [hstep]
    have := ih start (x + fd)
    simp only [runAgg] at this
    rw [this]

theorem foldl_endtime (fd : ℚ) (g : ℕ → ℚ) : ∀ (m : ℕ) (e : ℚ),
    ((List.range (m + 1)).map g).foldl (fun _ x => x + fd) e = g m + fd := by
  intro m
  induction m with
  | zero => intro e; rfl
  | succ m ih =>
    intro e
    rw [List.range_succ, List.map_append, List.foldl_append]
    rfl

/-- C3: feeding the same `(text, conf)` with `text ≠ ""` and
`conf ≥ min_conf` at `k ≥ 1` successive timestamps spaced by
`step / fps` and finalizing yields exactly one committed event spanning
from the first timestamp to the last timestamp plus `frame_duration`. -/
theorem similarity_idempotence (t : List Char) (conf mc step fps t0 : ℚ) (g : ℕ) (k : ℕ)
    (hk : 1 ≤ k) (ht : t ≠ []) (hconf : mc ≤ conf) (hfps : 0 < fps) :
    finalize (runAgg (aggInit mc g fps)
        ((List.range k).map (fun i : ℕ => (t, conf, t0 + (i : ℚ) * (step / fps))))) =
      [{ id := 1, start := t0, endt := t0 + ((k - 1 : ℕ) : ℚ) * (step / fps) + 1 / fps,
         text := t, conf := conf }] := by
  obtain ⟨m, rfl⟩ : ∃ m, k = m + 1 := ⟨k - 1, by omega⟩
  have hfd : aggInit mc g fps =
      { srt_data := [], active_event := none, min_conf := mc, gap_tolerance := g,
        frame_duration := 1 / fps } := by
    simp only [aggInit, if_pos hfps]
  rw [List.range_succ_eq_map, List.map_cons]
  simp only [runAgg, List.foldl_cons]
  rw [hfd]
  have hfirst : add_result
      { srt_data := [], active_event := none, min_conf := mc, gap_tolerance := g,
        frame_duration := 1 / fps } t conf (t0 + ((0 : ℕ) : ℚ) * (step / fps)) =
      { srt_data := [], active_event :=
          some ⟨t, t0 + ((0 : ℕ) : ℚ) * (step / fps),
            t0 + ((0 : ℕ) : ℚ) * (step / fps) + 1 / fps, conf, 0⟩,
        min_conf := mc, gap_tolerance := g, frame_duration := 1 / fps } := by
    simp only [add_result]
    rw [if_pos ⟨ht, hconf⟩]
  rw [hfirst]
  have hshape : ((fun i : ℕ => (t, conf, t0 + (i : ℚ) * (step / fps))) ∘ Nat.succ) =
      (fun x => (t, conf, x)) ∘ (fun i : ℕ => t0 + ((i + 1 : ℕ) : ℚ) * (step / fps)) := by
    funext i
    simp
  rw [List.map_map, hshape, ← List.map_map]
  have hrest := runAgg_extend_all t conf mc (1 / fps) g ht hconf
    ((List.range m).map (fun i : ℕ => t0 + ((i + 1 : ℕ) : ℚ) * (step / fps)))
    (t0 + ((0 : ℕ) : ℚ) * (step / fps)) (t0 + ((0 : ℕ) : ℚ) * (step / fps) + 1 / fps)
  simp only [runAgg] at hrest
  rw [hrest]
  simp only [finalize, commitEvent]
  cases m with
  | zero =>
    simp only [List.range_zero, List.map_nil, List.foldl_nil, List.length_nil, List.nil_append]
    congr 1
    congr 1 <;> push_cast <;> ring
  | succ m =>
    rw [foldl_endtime (1 / fps) (fun i : ℕ => t0 + ((i + 1 : ℕ) : ℚ) * (step / fps)) m]
    simp only [List.length_nil, List.nil_append]
    congr 1
    congr 1 <;> push_cast <;> ring

/-- Witness for C3 at `t = "ab"`, `conf = 1`, `min_conf = 0`, `fps = 25`,
`step = 2`, `t0 = 3`, `k = 4`. -/
theorem similarity_idempotence_witness :
    (1 ≤ 4) ∧ (['a', 'b'] ≠ ([] : List Char)) ∧ ((0 : ℚ) ≤ 1) ∧ ((0 : ℚ) < 25) ∧
      finalize (runAgg (aggInit 0 5 25)
          ((List.range 4).map (fun i : ℕ => (['a', 'b'], (1 : ℚ), 3 + (i : ℚ) * (2 / 25))))) =
        [{ id := 1, start := 3, endt := 3 + ((4 - 1 : ℕ) : ℚ) * (2 / 25) + 1 / 25,
           text := ['a', 'b'], conf := 1 }] :=
  ⟨by norm_num, by simp, by norm_num, by norm_num,
    similarity_idempotence ['a', 'b'] 1 0 2 25 3 5 4 (by norm_num) (by simp) (by norm_num)
      (by norm_num)⟩

/-! ## Lemmas and theorems: C1 (aggregator invariants) -/

theorem extend_start_endt (e : SubtitleEvent) (t : List Char) (endv conf : ℚ) :
    (e.extend t endv conf).start = e.start ∧ (e.extend t endv conf).endt = endv := by
  unfold SubtitleEvent.extend
  split
  · exact ⟨rfl, rfl⟩
  · exact ⟨rfl, rfl⟩

theorem append_item_props (data : List SubtitleItem) (x : SubtitleItem) (fd : ℚ)
    (hids : data.map SubtitleItem.id = List.range' 1 data.length)
    (hmem : ∀ it ∈ data, it.start + fd ≤ it.endt)
    (hchain : data.Chain' (fun p q => p.endt ≤ q.start))
    (hbefore : ∀ it ∈ data, it.endt ≤ x.start)
    (hx_id : x.id = data.length + 1)
    (hfd : 0 < fd)
    (hx_len : x.start + fd ≤ x.endt) :
    ((data ++ [x]).map SubtitleItem.id = List.range' 1 (data ++ [x]).length) ∧
    (∀ it ∈ data ++ [x], it.start + fd ≤ it.endt) ∧
    ((data ++ [x]).Chain' (fun p q => p.endt ≤ q.start)) ∧
    (∀ it ∈ data ++ [x], it.endt ≤ x.endt) := by
  refine ⟨?_, ?_, ?_, ?_⟩
  · rw [List.map_append, hids, List.length_append]
    simp only [List.map_cons, List.map_nil, List.length_cons, List.length_nil, hx_id]
    have := List.range'_1_concat 1 data.length
    rw [show data.length + 1 = 1 + data.length from by omega] at this ⊢
    rw [this]
  · intro it hit
    rcases List.mem_append.mp hit with h | h
    · exact hmem it h
    · rcases List.mem_singleton.mp h with rfl
      exact hx_len
  · rw [List.chain'_append]
    refine ⟨hchain, List.chain'_singleton x, ?_⟩
    intro p hp q hq
    simp only [List.head?_cons, Option.mem_def, Option.some.injEq] at hq
    subst hq
    apply hbefore
    exact List.mem_of_mem_getLast? hp
  · intro it hit
    rcases List.mem_append.mp hit with h | h
    · have := hbefore it h
      have := hx_len
      linarith
    · rcases List.mem_singleton.mp h with rfl
      exact le_refl _

theorem add_result_inv (data : List SubtitleItem) (act : Option SubtitleEvent) (mc fd : ℚ)
    (g : ℕ) (tl : Option ℚ) (tv : ℚ) (text : List Char) (conf : ℚ)
    (hfd : 0 < fd)
    (hinv : AggInv ⟨data, act, mc, g, fd⟩ tl)
    (hsp : ∀ t0, tl = some t0 → t0 + fd ≤ tv) :
    AggInv (add_result ⟨data, act, mc, g, fd⟩ text conf tv) (some tv) := by
  obtain ⟨h1, h2, h3, h4⟩ := hinv
  simp only at h1 h2 h3 h4
  simp only [add_result]
  by_cases hv : text ≠ [] ∧ mc ≤ conf
  · rw [if_pos hv]
    cases act with
    | none =>
      simp only
      refine ⟨h1, h2, h3, ?_⟩
      simp only
      cases tl with
      | none =>
        simp only at h4
        subst h4
        refine ⟨fun it hit => absurd hit (List.not_mem_nil it), by linarith, le_refl _⟩
      | some t0 =>
        simp only at h4
        have hts := hsp t0 rfl
        refine ⟨fun it hit => ?_, by linarith, le_refl _⟩
        have := h4 it hit
        linarith
    | some e =>
      cases tl with
      | none => simp only at h4
      | some t0 =>
        simp only at h4
        obtain ⟨hb1, hb2, hb3⟩ := h4
        have hts := hsp t0 rfl
        simp only
        by_cases hsim : is_similar e.text text (0.6 : ℚ) = true
        · rw [if_pos hsim]
          obtain ⟨hes, hee⟩ := extend_start_endt e text (tv + fd) conf
          refine ⟨h1, h2, h3, ?_⟩
          simp only
          refine ⟨fun it hit => ?_, ?_, ?_⟩
          · rw [hes]
            exact hb1 it hit
          · rw [hes, hee]
            linarith
          · rw [hee]
        · rw [if_neg hsim]
          simp only [commitEvent]
          obtain ⟨p1, p2, p3, p4⟩ := append_item_props data
            ⟨data.length + 1, e.start, e.endt, e.text, e.max_conf⟩ fd h1 h2 h3
            (by intro it hit; exact hb1 it hit) rfl hfd (by simpa using hb2)
          refine ⟨p1, p2, p3, ?_⟩
          simp only
          refine ⟨fun it hit => ?_, by linarith, le_refl _⟩
          have := p4 it hit
          simp only at this
          linarith
  · rw [if_neg hv]
    cases act with
    | none =>
      simp only
      refine ⟨h1, h2, h3, ?_⟩
      simp only
      cases tl with
      | none =>
        simp only at h4
        subst h4
        exact fun it hit => absurd hit (List.not_mem_nil it)
      | some t0 =>
        simp only at h4
        have hts := hsp t0 rfl
        intro it hit
        have := h4 it hit
        linarith
    | some e =>
      cases tl with
      | none => simp only at h4
      | some t0 =>
        simp only at h4
        obtain ⟨hb1, hb2, hb3⟩ := h4
        have hts := hsp t0 rfl
        simp only
        by_cases hgap : g < e.gap_frames + 1
        · rw [if_pos hgap]
          simp only [commitEvent]
          obtain ⟨p1, p2, p3, p4⟩ := append_item_props data
            ⟨data.length + 1, e.start, e.endt, e.text, e.max_conf⟩ fd h1 h2 h3
            (by intro it hit; exact hb1 it hit) rfl hfd (by simpa using hb2)
          refine ⟨p1, p2, p3, ?_⟩
          simp only
          intro it hit
          have := p4 it hit
          simp only at this
          linarith
        · rw [if_neg hgap]
          refine ⟨h1, h2, h3, ?_⟩
          simp only
          refine ⟨fun it hit => hb1 it hit, hb2, by linarith⟩

theorem add_result_preserves_config (s : AggState) (text : List Char) (conf tv : ℚ) :
    (add_result s text conf tv).min_conf = s.min_conf ∧
    (add_result s text conf tv).gap_tolerance = s.gap_tolerance ∧
    (add_result s text conf tv).frame_duration = s.frame_duration := by
  rcases s with ⟨data, act, mc, g, fd⟩
  cases act with
  | none =>
    simp only [add_result]
    split_ifs with h1
    · exact ⟨rfl, rfl, rfl⟩
    · exact ⟨rfl, rfl, rfl⟩
  | some e =>
    simp only [add_result, commitEvent]
    split_ifs with h1 h2 h3
    · exact ⟨rfl, rfl, rfl⟩
    · exact ⟨rfl, rfl, rfl⟩
    · exact ⟨rfl, rfl, rfl⟩
    · exact ⟨rfl, rfl, rfl⟩

theorem runAgg_inv : ∀ (inputs : List (List Char × ℚ × ℚ)) (s : AggState) (tl : Option ℚ),
    0 < s.frame_duration → AggInv s tl →
    Spaced s.frame_duration tl (inputs.map (fun x => x.2.2)) →
    AggInv (runAgg s inputs) (lastTimestamp tl (inputs.map (fun x => x.2.2))) ∧
    (runAgg s inputs).frame_duration = s.frame_duration := by
  intro inputs
  induction inputs with
  | nil =>
    intro s tl hfd hinv _
    exact ⟨hinv, rfl⟩
  | cons x rest ih =>
    intro s tl hfd hinv hsp
    rcases s with ⟨data, act, mc, g, fd⟩
    simp only at hfd
    simp only [List.map_cons, runAgg, List.foldl_cons, lastTimestamp]
    have hsp1 : ∀ t0, tl = some t0 → t0 + fd ≤ x.2.2 := by
      intro t0 htl
      subst htl
      simp only [Spaced] at hsp
      exact hsp.1
    have hstep := add_result_inv data act mc fd g tl x.2.2 x.1 x.2.1 hfd hinv hsp1
    have hcfg := add_result_preserves_config ⟨data, act, mc, g, fd⟩ x.1 x.2.1 x.2.2
    have hfd2 : 0 < (add_result ⟨data, act, mc, g, fd⟩ x.1 x.2.1 x.2.2).frame_duration := by
      rw [hcfg.2.2]
      exact hfd
    have hsp2 : Spaced (add_result ⟨data, act, mc, g, fd⟩ x.1 x.2.1 x.2.2).frame_duration
        (some x.2.2) (rest.map (fun y => y.2.2)) := by
      rw [hcfg.2.2]
      cases tl with
      | none => exact hsp
      | some t0 => exact hsp.2
    have hrec := ih (add_result ⟨data, act, mc, g, fd⟩ x.1 x.2.1 x.2.2) (some x.2.2) hfd2
      hstep hsp2
    simp only [runAgg] at hrec
    refine ⟨hrec.1, ?_⟩
    rw [hrec.2, hcfg.2.2]

theorem finalize_props (s : AggState) (tl : Option ℚ)
    (hfd : 0 < s.frame_duration) (hinv : AggInv s tl) :
    ((finalize s).map SubtitleItem.id = List.range' 1 (finalize s).length) ∧
    (∀ it ∈ finalize s, it.start + s.frame_duration ≤ it.endt) ∧
    ((finalize s).Chain' (fun p q => p.endt ≤ q.start)) := by
  rcases s with ⟨data, act, mc, g, fd⟩
  obtain ⟨h1, h2, h3, h4⟩ := hinv
  simp only at h1 h2 h3 h4 hfd ⊢
  cases act with
  | none => exact ⟨h1, h2, h3⟩
  | some e =>
    cases tl with
    | none => simp only at h4
    | some t0 =>
      simp only at h4
      obtain ⟨hb1, hb2, hb3⟩ := h4
      simp only [finalize, commitEvent]
      obtain ⟨p1, p2, p3, _⟩ := append_item_props data
        ⟨data.length + 1, e.start, e.endt, e.text, e.max_conf⟩ fd h1 h2 h3
        (by intro it hit; exact hb1 it hit) rfl hfd (by simpa using hb2)
      exact ⟨p1, p2, p3⟩

theorem chain_start_lt (fd : ℚ) (hfd : 0 < fd) : ∀ (items : List SubtitleItem),
    (∀ it ∈ items, it.start + fd ≤ it.endt) →
    items.Chain' (fun p q => p.endt ≤ q.start) →
    items.Chain' (fun p q => p.start < q.start) := by
  intro items
  induction items with
  | nil => intro _ _; exact List.chain'_nil
  | cons x rest ih =>
    intro hmem hch
    cases rest with
    | nil => exact List.chain'_singleton x
    | cons y rest2 =>
      rw [List.chain'_cons] at hch ⊢
      refine ⟨?_, ih (fun it hit => hmem it (List.mem_cons_of_mem x hit)) hch.2⟩
      have hx := hmem x (List.mem_cons_self x _)
      have := hch.1
      linarith

theorem aggInit_fd_pos (mc : ℚ) (g : ℕ) (fps : ℚ) : 0 < (aggInit mc g fps).frame_duration := by
  simp only [aggInit]
  split
  · rename_i h
    positivity
  · norm_num

/-- C1 (amended): when the timestamps fed to the aggregator are spaced
by at least `frame_duration` (as the frame reader guarantees), the
finalized list has dense ids `1..N`, every item spans at least one
frame (`end ≥ start + frame_duration`), the items are strictly
time-ordered, and their intervals do not overlap
(`items[i].end ≤ items[i+1].start`). -/
theorem aggregator_invariants (mc : ℚ) (g : ℕ) (fps : ℚ)
    (inputs : List (List Char × ℚ × ℚ))
    (hsp : Spaced (aggInit mc g fps).frame_duration none (inputs.map (fun x => x.2.2))) :
    ((finalize (runAgg (aggInit mc g fps) inputs)).map SubtitleItem.id =
      List.range' 1 (finalize (runAgg (aggInit mc g fps) inputs)).length) ∧
    (∀ it ∈ finalize (runAgg (aggInit mc g fps) inputs),
      it.start + (aggInit mc g fps).frame_duration ≤ it.endt) ∧
    ((finalize (runAgg (aggInit mc g fps) inputs)).Chain' (fun p q => p.endt ≤ q.start)) ∧
    ((finalize (runAgg (aggInit mc g fps) inputs)).Chain' (fun p q => p.start < q.start)) := by
  have hfd := aggInit_fd_pos mc g fps
  have hinv0 : AggInv (aggInit mc g fps) none := by
    refine ⟨rfl, ?_, List.chain'_nil, ?_⟩
    · intro it hit
      exact absurd hit (List.not_mem_nil it)
    · simp only [aggInit]
  obtain ⟨hinv, hfdp⟩ := runAgg_inv inputs (aggInit mc g fps) none hfd hinv0 hsp
  have hfd2 : 0 < (runAgg (aggInit mc g fps) inputs).frame_duration := by
    rw [hfdp]
    exact hfd
  obtain ⟨f1, f2, f3⟩ := finalize_props (runAgg (aggInit mc g fps) inputs) _ hfd2 hinv
  rw [hfdp] at f2
  refine ⟨f1, f2, f3, ?_⟩
  exact chain_start_lt (aggInit mc g fps).frame_duration hfd _ f2 f3

/-- Witness for C1 (amended): two dissimilar captions a full frame
apart at `fps = 25`. -/
theorem aggregator_invariants_witness :
    Spaced (aggInit 0 5 25).frame_duration none
      (([(['h', 'i'], (1 : ℚ), 0), (['y', 'o'], (1 : ℚ), 1 / 25)] :
        List (List Char × ℚ × ℚ)).map (fun x => x.2.2)) ∧
    ((finalize (runAgg (aggInit 0 5 25)
        [(['h', 'i'], (1 : ℚ), 0), (['y', 'o'], (1 : ℚ), 1 / 25)])).Chain'
      (fun p q => p.endt ≤ q.start)) := by
  have hsp : Spaced (aggInit 0 5 25).frame_duration none
      (([(['h', 'i'], (1 : ℚ), 0), (['y', 'o'], (1 : ℚ), 1 / 25)] :
        List (List Char × ℚ × ℚ)).map (fun x => x.2.2)) := by
    simp only [List.map_cons, List.map_nil, Spaced, aggInit]
    norm_num
  exact ⟨hsp, (aggregator_invariants 0 5 25
    [(['h', 'i'], (1 : ℚ), 0), (['y', 'o'], (1 : ℚ), 1 / 25)] hsp).2.2.1⟩

theorem is_similar_aaaa_zzzz :
    is_similar ['a', 'a', 'a', 'a'] ['z', 'z', 'z', 'z'] (0.6 : ℚ) = false := by
  have hm : matchingTotal ['a', 'a', 'a', 'a'] ['z', 'z', 'z', 'z'] = 0 := by decide
  rw [is_similar, if_neg (by simp)]
  rw [decide_eq_false_iff_not]
  intro hlt
  rw [ratioQ, if_neg (by simp), hm] at hlt
  norm_num at hlt

/-- C1, as stated, is false: with strictly increasing timestamps that
are closer together than `frame_duration` (here `0` and `1/50` at
`fps = 25`, so `frame_duration = 1/25`), two committed events overlap:
the first ends at `1/25` but the second starts at `1/50 < 1/25`. -/
theorem aggregator_overlap_counterexample :
    ((0 : ℚ) < 1 / 50) ∧
    ¬ ((finalize (runAgg (aggInit 0 5 25)
        [(['a', 'a', 'a', 'a'], (1 : ℚ), 0), (['z', 'z', 'z', 'z'], (1 : ℚ), 1 / 50)])).Chain'
      (fun p q => p.endt ≤ q.start)) := by
  constructor
  · norm_num
  have h0 : aggInit 0 5 25 =
      ⟨[], none, 0, 5, 1 / 25⟩ := by
    simp only [aggInit]
    norm_num
  have h1 : add_result ⟨[], none, 0, 5, 1 / 25⟩ ['a', 'a', 'a', 'a'] 1 0 =
      ⟨[], some ⟨['a', 'a', 'a', 'a'], 0, 0 + 1 / 25, 1, 0⟩, 0, 5, 1 / 25⟩ := by
    simp only [add_result]
    rw [if_pos ⟨by simp, by norm_num⟩]
  have h2 : add_result ⟨[], some ⟨['a', 'a', 'a', 'a'], 0, 0 + 1 / 25, 1, 0⟩, 0, 5, 1 / 25⟩
      ['z', 'z', 'z', 'z'] 1 (1 / 50) =
      ⟨[⟨1, 0, 0 + 1 / 25, ['a', 'a', 'a', 'a'], 1⟩],
        some ⟨['z', 'z', 'z', 'z'], 1 / 50, 1 / 50 + 1 / 25, 1, 0⟩, 0, 5, 1 / 25⟩ := by
    simp only [add_result]
    rw [if_pos ⟨by simp, by norm_num⟩]
    simp only [is_similar_aaaa_zzzz, Bool.false_eq_true, if_false, commitEvent,
      List.length_nil, List.nil_append]
  simp only [runAgg, List.foldl_cons, List.foldl_nil, h0, h1, h2, finalize, commitEvent,
    List.length_cons, List.length_nil]
  intro hch
  simp only [List.singleton_append] at hch
  rw [List.chain'_cons] at hch
  have := hch.1
  simp only at this
  norm_num at this

/-- Witness for C6: with no recognized text, parsing returns `("", 0)`. -/
theorem parse_results_spec_witness :
    ((validItems ⟨[], [], []⟩ 0 = [] ∨ OcrData.rec_texts ⟨[], [], []⟩ = []) ∧
      parse_results (some ⟨[], [], []⟩) 0 = ([], 0)) :=
  ⟨Or.inr rfl, (parse_results_spec ⟨[], [], []⟩ 0).2.1 (Or.inr rfl)⟩

/-! ## Lemmas: SRT timestamp round-trip -/

theorem rndNE_bounds (q : ℚ) : q - 1 / 2 ≤ (rndNE q : ℚ) ∧ (rndNE q : ℚ) ≤ q + 1 / 2 := by
  have hf1 : (⌊q⌋ : ℚ) ≤ q := Int.floor_le q
  have hf2 : q < ⌊q⌋ + 1 := Int.lt_floor_add_one q
  unfold rndNE
  split_ifs with h1 h2 h3
  · constructor <;> push_cast <;> linarith
  · constructor <;> push_cast <;> linarith
  · constructor <;> push_cast <;> linarith
  · constructor <;> push_cast <;> linarith

theorem natToDigits_one_digit {n : ℕ} (h : n < 10) : natToDigits n = [digitChar n] := by
  simp [natToDigits, natToDigitsAux, if_pos h]

theorem natToDigits_two_digit {n : ℕ} (h1 : 10 ≤ n) (h2 : n < 100) :
    natToDigits n = [digitChar (n / 10), digitChar (n % 10)] := by
  rw [natToDigits_eq_split h1, natToDigits_one_digit (by omega)]
  rfl

theorem pad2_eq (x : ℤ) (h0 : 0 ≤ x) (h1 : x < 100) :
    pad2 x = [digitChar (x.toNat / 10), digitChar (x.toNat % 10)] := by
  rw [pad2, if_pos h0]
  by_cases hs : x.toNat < 10
  · rw [if_pos hs, natToDigits_one_digit hs]
    have e1 : x.toNat / 10 = 0 := by omega
    have e2 : x.toNat % 10 = x.toNat := by omega
    rw [e1, e2]
    rfl
  · rw [if_neg hs, natToDigits_two_digit (by omega) (by omega)]

theorem pad3_eq (n : ℕ) (h : n < 1000) :
    pad3 n = [digitChar (n / 100), digitChar (n / 10 % 10), digitChar (n % 10)] := by
  unfold pad3
  by_cases h1 : n < 10
  · rw [if_pos h1, natToDigits_one_digit h1]
    have e1 : n / 100 = 0 := by omega
    have e2 : n / 10 % 10 = 0 := by omega
    have e3 : n % 10 = n := by omega
    rw [e1, e2, e3]
    rfl
  · rw [if_neg h1]
    by_cases h2 : n < 100
    · rw [if_pos h2, natToDigits_two_digit (by omega) h2]
      have e1 : n / 100 = 0 := by omega
      have e2 : n / 10 % 10 = n / 10 := by omega
      rw [e1, e2]
      rfl
    · rw [if_neg h2, natToDigits_eq_split (by omega : 10 ≤ n),
        natToDigits_two_digit (show 10 ≤ n / 10 by omega) (show n / 10 < 100 by omega)]
      have e1 : n / 10 / 10 = n / 100 := by omega
      rw [e1]
      rfl

theorem pyInt_natCast_div (m d : ℕ) :
    pyInt ((m : ℚ) / ((d : ℕ) : ℚ)) = ((m / d : ℕ) : ℤ) := by
  rw [pyInt, if_pos (by positivity)]
  rw [show ((m : ℚ)) = (((m : ℤ)) : ℚ) by norm_cast]
  rw [Rat.floor_intCast_div_natCast]
  push_cast
  rfl

theorem matchTs_digits (a b c d e f g h i : ℕ) (rest : List Char)
    (ha : a < 10) (hb : b < 10) (hc : c < 10) (hd : d < 10) (he : e < 10)
    (hf : f < 10) (hg : g < 10) (hh : h < 10) (hi : i < 10) :
    matchTs (digitChar a :: digitChar b :: ':' :: digitChar c :: digitChar d :: ':' ::
        digitChar e :: digitChar f :: ',' :: digitChar g :: digitChar h :: digitChar i :: rest) =
      some ((((10 * a + b) * 3600 + (10 * c + d) * 60 + (10 * e + f) : ℕ) : ℚ) +
        ((100 * g + 10 * h + i : ℕ) : ℚ) / 1000, rest) := by
  simp only [matchTs]
  rw [if_pos ⟨digitChar_isDigit ha, digitChar_isDigit hb, digitChar_isDigit hc,
    digitChar_isDigit hd, digitChar_isDigit he, digitChar_isDigit hf,
    digitChar_isDigit hg, digitChar_isDigit hh, digitChar_isDigit hi⟩]
  simp only [digitChar_toNat ha, digitChar_toNat hb, digitChar_toNat hc, digitChar_toNat hd,
    digitChar_toNat he, digitChar_toNat hf, digitChar_toNat hg, digitChar_toNat hh,
    digitChar_toNat hi, Nat.add_sub_cancel_left]

theorem format_timestamp_digits (s : ℚ) (h0 : 0 ≤ s) (h1 : s ≤ 359999) :
    ∃ T msv : ℕ, T ≤ 359999 ∧ msv < 1000 ∧
      format_timestamp s =
        [digitChar (T / 3600 / 10), digitChar (T / 3600 % 10), ':',
         digitChar (T % 3600 / 60 / 10), digitChar (T % 3600 / 60 % 10), ':',
         digitChar (T % 60 / 10), digitChar (T % 60 % 10), ',',
         digitChar (msv / 100), digitChar (msv / 10 % 10), digitChar (msv % 10)] ∧
      |((T : ℚ) + (msv : ℚ) / 1000) - s| ≤ 1 / 1000 := by
  obtain ⟨hlo, hhi⟩ := rndNE_bounds (s * 1000000)
  have hm0 : 0 ≤ rndNE (s * 1000000) := by
    by_contra hneg
    push_neg at hneg
    have h2i : rndNE (s * 1000000) ≤ -1 := by omega
    have h2 : (rndNE (s * 1000000) : ℚ) ≤ -1 := by exact_mod_cast h2i
    nlinarith
  have hmhi : rndNE (s * 1000000) ≤ 359999000000 := by
    by_contra hbig
    push_neg at hbig
    have h2i : 359999000001 ≤ rndNE (s * 1000000) := by omega
    have h2 : (359999000001 : ℚ) ≤ (rndNE (s * 1000000) : ℚ) := by exact_mod_cast h2i
    nlinarith
  have hmn : rndNE (s * 1000000) = ((rndNE (s * 1000000)).toNat : ℤ) :=
    (Int.toNat_of_nonneg hm0).symm
  set n : ℕ := (rndNE (s * 1000000)).toNat with hn
  have hnhi : n ≤ 359999000000 := by omega
  refine ⟨n / 1000000, n % 1000000 / 1000, by omega, by omega, ?_, ?_⟩
  · simp only [format_timestamp]
    rw [hmn]
    rw [Int.cast_natCast]
    rw [show (1000000 : ℚ) = ((1000000 : ℕ) : ℚ) by norm_cast]
    rw [pyInt_natCast_div]
    rw [show ((n / 1000000 : ℕ) : ℤ).fdiv 3600 = ((n / 1000000 / 3600 : ℕ) : ℤ) by
      rw [Int.fdiv_eq_ediv _ (by norm_num)]; omega]
    rw [show ((n / 1000000 : ℕ) : ℤ).emod 3600 = ((n / 1000000 % 3600 : ℕ) : ℤ) by
      show ((n / 1000000 : ℕ) : ℤ) % 3600 = _; omega]
    rw [show ((n / 1000000 % 3600 : ℕ) : ℤ).fdiv 60 = ((n / 1000000 % 3600 / 60 : ℕ) : ℤ) by
      rw [Int.fdiv_eq_ediv _ (by norm_num)]; omega]
    rw [show ((n / 1000000 : ℕ) : ℤ).emod 60 = ((n / 1000000 % 60 : ℕ) : ℤ) by
      show ((n / 1000000 : ℕ) : ℤ) % 60 = _; omega]
    rw [show ((n : ℤ)).emod 1000000 = ((n % 1000000 : ℕ) : ℤ) by
      show ((n : ℕ) : ℤ) % 1000000 = _; omega]
    rw [Int.cast_natCast]
    rw [show (1000 : ℚ) = ((1000 : ℕ) : ℚ) by norm_cast]
    rw [pyInt_natCast_div]
    rw [pad2_eq _ (by positivity) (by exact_mod_cast (show n / 1000000 / 3600 < 100 by omega))]
    rw [pad2_eq _ (by positivity)
      (by exact_mod_cast (show n / 1000000 % 3600 / 60 < 100 by omega))]
    rw [pad2_eq _ (by positivity) (by exact_mod_cast (show n / 1000000 % 60 < 100 by omega))]
    rw [Int.toNat_natCast, Int.toNat_natCast, Int.toNat_natCast, Int.toNat_natCast]
    rw [pad3_eq _ (by omega)]
    simp only [List.cons_append, List.nil_append]
  · have hq : (rndNE (s * 1000000) : ℚ) = (n : ℚ) := by
      rw [hmn]
      push_cast
      ring
    rw [hq] at hlo hhi
    have hdec : n = 1000000 * (n / 1000000) + 1000 * (n % 1000000 / 1000) +
        n % 1000000 % 1000 := by omega
    have hdecQ : (n : ℚ) = 1000000 * ((n / 1000000 : ℕ) : ℚ) +
        1000 * ((n % 1000000 / 1000 : ℕ) : ℚ) + ((n % 1000000 % 1000 : ℕ) : ℚ) := by
      exact_mod_cast hdec
    have hw0 : (0 : ℚ) ≤ ((n % 1000000 % 1000 : ℕ) : ℚ) := by positivity
    have hw1 : ((n % 1000000 % 1000 : ℕ) : ℚ) ≤ 999 := by
      exact_mod_cast (show n % 1000000 % 1000 ≤ 999 by omega)
    rw [abs_le]
    constructor <;> linarith

theorem format_timestamp_parse (s : ℚ) (h0 : 0 ≤ s) (h1 : s ≤ 359999) (rest : List Char) :
    ∃ v : ℚ, matchTs (format_timestamp s ++ rest) = some (v, rest) ∧ |v - s| ≤ 1 / 1000 := by
  obtain ⟨T, msv, hT, hm, hfmt, herr⟩ := format_timestamp_digits s h0 h1
  refine ⟨(T : ℚ) + (msv : ℚ) / 1000, ?_, herr⟩
  rw [hfmt]
  simp only [List.cons_append, List.nil_append]
  rw [matchTs_digits _ _ _ _ _ _ _ _ _ rest (by omega) (by omega) (by omega) (by omega)
    (by omega) (by omega) (by omega) (by omega) (by omega)]
  have e1 : (10 * (T / 3600 / 10) + T / 3600 % 10) * 3600 +
      (10 * (T % 3600 / 60 / 10) + T % 3600 / 60 % 10) * 60 +
      (10 * (T % 60 / 10) + T % 60 % 10) = T := by omega
  have e2 : 100 * (msv / 100) + 10 * (msv / 10 % 10) + msv % 10 = msv := by omega
  rw [e1, e2]

theorem takeWhile_digits (A rest : List Char) (hA : ∀ c ∈ A, c.isDigit = true) :
    (A ++ '\n' :: rest).takeWhile Char.isDigit = A := by
  induction A with
  | nil => simp [List.takeWhile_cons]
  | cons c cs ih =>
    simp only [List.cons_append, List.takeWhile_cons, hA c (List.mem_cons_self c cs), if_true]
    exact congrArg (c :: ·) (ih fun x hx => hA x (List.mem_cons_of_mem _ hx))

theorem takeUntilBlank_append (t rest : List Char) (hb : hasBlank t = false)
    (hl : t.getLast? ≠ some '\n') : takeUntilBlank (t ++ '\n' :: '\n' :: rest) = t := by
  induction t with
  | nil => simp [takeUntilBlank]
  | cons c cs ih =>
    have hb' : ¬((c = '\n' ∧ cs.head? = some '\n') ∨ hasBlank cs = true) := by
      rw [hasBlank] at hb
      exact of_decide_eq_false hb
    have hb2 : hasBlank cs = false := by
      cases h : hasBlank cs
      · rfl
      · exact absurd (Or.inr h) hb'
    rw [List.cons_append, takeUntilBlank]
    cases cs with
    | nil =>
      have hc : c ≠ '\n' := by
        intro h
        exact hl (by simp [h])
      rw [if_neg (by simp [hc]), List.nil_append, takeUntilBlank]
      rw [if_pos (by simp)]
    | cons c2 cs2 =>
      have hnc : ¬(c = '\n' ∧ ((c2 :: cs2 : List Char) ++ '\n' :: '\n' :: rest).head? =
          some '\n') := by
        intro h
        obtain ⟨hx1, hx2⟩ := h
        simp only [List.cons_append, List.head?_cons, Option.some.injEq] at hx2
        exact hb' (Or.inl ⟨hx1, by simp [hx2]⟩)
      rw [if_neg hnc, ih hb2 (by simpa [List.getLast?_cons_cons] using hl)]

theorem matchBlock_newline (l : List Char) : matchBlock ('\n' :: l) = none := by
  simp [matchBlock, List.takeWhile_cons]

theorem scanBlocks_nil (fuel : ℕ) : scanBlocks fuel [] = [] := by
  cases fuel <;> rfl

theorem matchBlock_srtBlock (it : SubtitleItem) (tail : List Char)
    (h0 : 0 ≤ it.start) (h1 : it.start ≤ 359999) (h2 : 0 ≤ it.endt) (h3 : it.endt ≤ 359999)
    (hb : hasBlank it.text = false) (hl : it.text.getLast? ≠ some '\n') :
    ∃ v1 v2 : ℚ, |v1 - it.start| ≤ 1 / 1000 ∧ |v2 - it.endt| ≤ 1 / 1000 ∧
      matchBlock (srtBlock it ++ tail) =
        some (⟨it.id, v1, v2, it.text⟩, '\n' :: '\n' :: tail) := by
  obtain ⟨v1, hm1, he1⟩ := format_timestamp_parse it.start h0 h1
    (' ' :: '-' :: '-' :: '>' :: ' ' :: (format_timestamp it.endt ++ '\n' ::
      (it.text ++ '\n' :: '\n' :: tail)))
  obtain ⟨v2, hm2, he2⟩ := format_timestamp_parse it.endt h2 h3
    ('\n' :: (it.text ++ '\n' :: '\n' :: tail))
  refine ⟨v1, v2, he1, he2, ?_⟩
  have hshape : srtBlock it ++ tail = natToDigits it.id ++ '\n' ::
      (format_timestamp it.start ++ ' ' :: '-' :: '-' :: '>' :: ' ' ::
        (format_timestamp it.endt ++ '\n' :: (it.text ++ '\n' :: '\n' :: tail))) := by
    simp [srtBlock, List.append_assoc]
  rw [hshape]
  simp only [matchBlock, takeWhile_digits _ _ (natToDigits_all_digits it.id),
    if_neg (natToDigits_ne_nil it.id), List.drop_left, hm1, hm2,
    takeUntilBlank_append it.text tail hb hl, digitsToNat_natToDigits]

theorem replaceCRLF_no_cr (l : List Char) (h : '\r' ∉ l) : replaceCRLF l = l := by
  induction l with
  | nil => rfl
  | cons c cs ih =>
    have hc : c ≠ '\r' := fun hh => h (hh ▸ List.mem_cons_self _ _)
    have hr : '\r' ∉ cs := fun hm => h (List.mem_cons_of_mem _ hm)
    rw [replaceCRLF.eq_def]
    split
    · rename_i rest heq
      injection heq with e1 _
      exact absurd e1 hc
    · rename_i c2 rest heq
      injection heq with e1 e2
      subst e1
      subst e2
      rw [ih hr]
    · rename_i heq
      exact absurd heq (by simp)

theorem normalizeNewlines_no_cr (l : List Char) (h : '\r' ∉ l) :
    normalizeNewlines l = l := by
  rw [normalizeNewlines, replaceCRLF_no_cr l h]
  conv_rhs => rw [← List.map_id l]
  refine List.map_congr_left fun c hc => ?_
  have hcne : ¬(c = '\r') := fun he => h (he ▸ hc)
  rw [if_neg hcne]
  rfl

theorem stripTagsAux_no_lt (fuel : ℕ) : ∀ l : List Char, '<' ∉ l →
    stripTagsAux fuel l = l := by
  induction fuel with
  | zero => intro l _; rfl
  | succ f ih =>
    intro l hl
    cases l with
    | nil => rfl
    | cons c cs =>
      have hc : c ≠ '<' := fun hh => hl (hh ▸ List.mem_cons_self _ _)
      have hr : '<' ∉ cs := fun hm => hl (List.mem_cons_of_mem _ hm)
      rw [stripTagsAux.eq_def]
      split
      · rfl
      · rename_i heq
        exact absurd heq (by simp)
      · rename_i f2 rest heq
        injection heq with e1 _
        exact absurd e1 hc
      · rename_i fu cc rr hnlt he1 he2
        injection he2 with ec ecs
        subst ec
        subst ecs
        have hfu : fu = f := by omega
        subst hfu
        exact congrArg (c :: ·) (ih _ hr)

theorem stripTags_no_lt (l : List Char) (h : '<' ∉ l) : stripTags l = l :=
  stripTagsAux_no_lt _ _ h

theorem pyStrip_no_space (l : List Char)
    (hh : ∀ c, l.head? = some c → pySpace c = false)
    (hl : ∀ c, l.getLast? = some c → pySpace c = false) : pyStrip l = l := by
  rw [pyStrip]
  have h1 : l.dropWhile pySpace = l := by
    cases l with
    | nil => rfl
    | cons c cs => rw [List.dropWhile_cons, if_neg (by simp [hh c rfl])]
  rw [h1]
  have h2 : l.reverse.dropWhile pySpace = l.reverse := by
    cases hr : l.reverse with
    | nil => rfl
    | cons c cs =>
      have hgl : l.getLast? = some c := by
        rw [← List.head?_reverse, hr, List.head?_cons]
      rw [List.dropWhile_cons, if_neg (by simp [hl c hgl])]
  rw [h2, List.reverse_reverse]

theorem digit_ne_cr {c : Char} (h : c.isDigit = true) : c ≠ '\r' := by
  intro he
  subst he
  exact absurd h (by decide)

theorem cr_ne_digitChar {d : ℕ} (hd : d < 10) : digitChar d ≠ '\r' :=
  digit_ne_cr (digitChar_isDigit hd)

theorem not_cr_format_timestamp (s : ℚ) (h0 : 0 ≤ s) (h1 : s ≤ 359999) :
    '\r' ∉ format_timestamp s := by
  obtain ⟨T, msv, hT, hm, hfmt, _⟩ := format_timestamp_digits s h0 h1
  rw [hfmt]
  intro hmem
  simp only [List.mem_cons, List.not_mem_nil, or_false] at hmem
  rcases hmem with h | h | h | h | h | h | h | h | h | h | h | h
  all_goals first
    | exact absurd h (by decide)
    | exact cr_ne_digitChar (by omega) h.symm

theorem not_cr_srtBlock (it : SubtitleItem) (h0 : 0 ≤ it.start) (h1 : it.start ≤ 359999)
    (h2 : 0 ≤ it.endt) (h3 : it.endt ≤ 359999) (ht : '\r' ∉ it.text) :
    '\r' ∉ srtBlock it := by
  simp only [srtBlock, List.mem_append, List.mem_cons, List.not_mem_nil, or_false, not_or]
  repeat' apply And.intro
  all_goals first
    | decide
    | exact fun hm => digit_ne_cr (natToDigits_all_digits _ _ hm) rfl
    | exact not_cr_format_timestamp _ h0 h1
    | exact not_cr_format_timestamp _ h2 h3
    | exact ht

theorem join_cons_eq {α : Type} (a : List α) (L : List (List α)) :
    (a :: L).join = a ++ L.join := rfl

theorem not_cr_formatSrt (items : List SubtitleItem)
    (h : ∀ it ∈ items, (0 ≤ it.start ∧ it.start ≤ 359999 ∧ 0 ≤ it.endt ∧ it.endt ≤ 359999) ∧
      '\r' ∉ it.text) : '\r' ∉ formatSrt items := by
  induction items with
  | nil => simp [formatSrt]
  | cons it its ih =>
    intro hmem
    rw [formatSrt, List.map_cons, join_cons_eq] at hmem
    rcases List.mem_append.mp hmem with hm | hm
    · have hx := h it (List.mem_cons_self _ _)
      exact not_cr_srtBlock it hx.1.1 hx.1.2.1 hx.1.2.2.1 hx.1.2.2.2 hx.2 hm
    · refine ih (fun x hx => h x (List.mem_cons_of_mem _ hx)) ?_
      rw [formatSrt]
      exact hm

theorem srtBlock_length (it : SubtitleItem) : 3 ≤ (srtBlock it).length := by
  simp only [srtBlock, List.length_append, List.length_cons]
  omega

theorem formatSrt_length (items : List SubtitleItem) :
    3 * items.length ≤ (formatSrt items).length := by
  induction items with
  | nil => simp [formatSrt]
  | cons it its ih =>
    have hb := srtBlock_length it
    rw [formatSrt, List.map_cons, join_cons_eq, List.length_append]
    rw [formatSrt] at ih
    simp only [List.length_cons]
    omega

theorem scanBlocks_formatSrt (items : List SubtitleItem) (fuel : ℕ)
    (h : ∀ it ∈ items, (0 ≤ it.start ∧ it.start ≤ 359999 ∧ 0 ≤ it.endt ∧ it.endt ≤ 359999) ∧
      hasBlank it.text = false ∧ it.text.getLast? ≠ some '\n')
    (hfuel : 3 * items.length + 2 ≤ fuel) :
    List.Forall₂ (fun it b => b.id = it.id ∧ b.text = it.text ∧
        |b.start - it.start| ≤ 1 / 1000 ∧ |b.endt - it.endt| ≤ 1 / 1000)
      items (scanBlocks fuel (formatSrt items ++ ['\n', '\n'])) := by
  induction items generalizing fuel with
  | nil =>
    obtain ⟨k, rfl⟩ : ∃ k, fuel = k + 2 := ⟨fuel - 2, by omega⟩
    simp only [formatSrt, List.map_nil, List.nil_append]
    rw [show (([] : List (List Char)).join) = ([] : List Char) from rfl]
    simp only [scanBlocks, matchBlock_newline, scanBlocks_nil, List.nil_append]
    exact List.Forall₂.nil
  | cons it its ih =>
    simp only [List.length_cons] at hfuel
    obtain ⟨k, rfl⟩ : ∃ k, fuel = k + 3 := ⟨fuel - 3, by omega⟩
    have hx := h it (List.mem_cons_self _ _)
    obtain ⟨v1, v2, he1, he2, hmb⟩ := matchBlock_srtBlock it (formatSrt its ++ ['\n', '\n'])
      hx.1.1 hx.1.2.1 hx.1.2.2.1 hx.1.2.2.2 hx.2.1 hx.2.2
    have hcontent : formatSrt (it :: its) ++ ['\n', '\n'] =
        srtBlock it ++ (formatSrt its ++ ['\n', '\n']) := by
      rw [formatSrt, List.map_cons, join_cons_eq, formatSrt, List.append_assoc]
    rw [hcontent]
    simp only [scanBlocks, hmb, matchBlock_newline]
    refine List.Forall₂.cons ⟨rfl, rfl, he1, he2⟩ ?_
    exact ih k (fun x hx2 => h x (List.mem_cons_of_mem _ hx2)) (by omega)

theorem forall2_imp_mem {α β : Type} {R S : α → β → Prop} {P : α → Prop}
    {l₁ : List α} {l₂ : List β} (himp : ∀ a b, P a → R a b → S a b)
    (hf : List.Forall₂ R l₁ l₂) : (∀ a ∈ l₁, P a) → List.Forall₂ S l₁ l₂ := by
  induction hf with
  | nil => exact fun _ => List.Forall₂.nil
  | cons hr hrest ih =>
    intro hp
    exact List.Forall₂.cons (himp _ _ (hp _ (List.mem_cons_self _ _)) hr)
      (ih fun a ha => hp a (List.mem_cons_of_mem _ ha))

theorem parse_srt_formatSrt (items : List SubtitleItem)
    (h : ∀ it ∈ items, (0 ≤ it.start ∧ it.start ≤ 359999 ∧ 0 ≤ it.endt ∧ it.endt ≤ 359999) ∧
      hasBlank it.text = false ∧ it.text.getLast? ≠ some '\n' ∧ '\r' ∉ it.text) :
    List.Forall₂ (fun it b => b.id = it.id ∧ b.text = stripTags (pyStrip it.text) ∧
        |b.start - it.start| ≤ 1 / 1000 ∧ |b.endt - it.endt| ≤ 1 / 1000)
      items (parse_srt (formatSrt items)) := by
  have hnocr : '\r' ∉ formatSrt items := not_cr_formatSrt items (fun it hit =>
    ⟨(h it hit).1, (h it hit).2.2.2⟩)
  simp only [parse_srt]
  rw [normalizeNewlines_no_cr _ hnocr]
  have hscan := scanBlocks_formatSrt items ((formatSrt items).length + 2)
    (fun it hit => ⟨(h it hit).1, (h it hit).2.1, (h it hit).2.2.1⟩)
    (by have := formatSrt_length items; omega)
  rw [List.forall₂_map_right_iff]
  refine hscan.imp fun it b hr => ?_
  exact ⟨hr.1, by
    show stripTags (pyStrip b.text) = stripTags (pyStrip it.text)
    rw [hr.2.1], hr.2.2.1, hr.2.2.2⟩

theorem format_timestamp_zero :
    format_timestamp 0 =
      ['0', '0', ':', '0', '0', ':', '0', '0', ',', '0', '0', '0'] := by
  have h1 : rndNE ((0 : ℚ) * 1000000) = 0 := by
    rw [rndNE]
    norm_num
  have h2 : pyInt (((0 : ℤ) : ℚ) / 1000000) = 0 := by
    rw [pyInt]
    norm_num
  have h3 : (0 : ℤ).emod 1000000 = 0 := by decide
  have h4 : pyInt (((0 : ℤ) : ℚ) / 1000) = 0 := by
    rw [pyInt]
    norm_num
  simp only [format_timestamp, h1, h2, h3, h4]
  decide

theorem format_timestamp_one :
    format_timestamp 1 =
      ['0', '0', ':', '0', '0', ':', '0', '1', ',', '0', '0', '0'] := by
  have h1 : rndNE ((1 : ℚ) * 1000000) = 1000000 := by
    rw [rndNE]
    norm_num
  have h2 : pyInt (((1000000 : ℤ) : ℚ) / 1000000) = 1 := by
    rw [pyInt]
    norm_num
  have h3 : (1000000 : ℤ).emod 1000000 = 0 := by decide
  have h4 : pyInt (((0 : ℤ) : ℚ) / 1000) = 0 := by
    rw [pyInt]
    norm_num
  simp only [format_timestamp, h1, h2, h3, h4]
  decide

/-- C2 (corrected): formatting a committed subtitle list to SRT text with the
worker's writer and parsing it back with `parse_srt` returns one parsed block
per item, with the same id and text and with start and end within 1 ms of the
originals, provided every item's timestamps lie in the formatter's range and
its text is storable as written: no blank line, no carriage return, no `<`,
and no leading or trailing whitespace. -/
theorem srt_round_trip (items : List SubtitleItem)
    (hb : ∀ it ∈ items, 0 ≤ it.start ∧ it.start ≤ 359999 ∧ 0 ≤ it.endt ∧ it.endt ≤ 359999)
    (ht : ∀ it ∈ items, hasBlank it.text = false ∧ '\r' ∉ it.text ∧ '<' ∉ it.text ∧
      (∀ c, it.text.head? = some c → pySpace c = false) ∧
      (∀ c, it.text.getLast? = some c → pySpace c = false)) :
    List.Forall₂ (fun it b => b.id = it.id ∧ b.text = it.text ∧
        |b.start - it.start| ≤ 1 / 1000 ∧ |b.endt - it.endt| ≤ 1 / 1000)
      items (parse_srt (formatSrt items)) := by
  have hcore := parse_srt_formatSrt items (fun it hit => ⟨hb it hit, (ht it hit).1,
    fun hgl => absurd ((ht it hit).2.2.2.2 '\n' hgl) (by decide),
    (ht it hit).2.1⟩)
  refine forall2_imp_mem ?_ hcore ht
  intro it b hP hr
  refine ⟨hr.1, ?_, hr.2.2.1, hr.2.2.2⟩
  rw [hr.2.1, pyStrip_no_space _ hP.2.2.2.1 hP.2.2.2.2, stripTags_no_lt _ hP.2.2.1]

/-- Witness for C2: a concrete one-item run of the round trip. -/
theorem srt_round_trip_witness :
    List.Forall₂ (fun (it : SubtitleItem) b => b.id = it.id ∧ b.text = it.text ∧
        |b.start - it.start| ≤ 1 / 1000 ∧ |b.endt - it.endt| ≤ 1 / 1000)
      [⟨1, 0, 1, ['h', 'i'], 1⟩]
      (parse_srt (formatSrt [⟨1, 0, 1, ['h', 'i'], 1⟩])) :=
  srt_round_trip [⟨1, 0, 1, ['h', 'i'], 1⟩]
    (by
      intro it hit
      simp only [List.mem_singleton] at hit
      subst hit
      refine ⟨by norm_num, by norm_num, by norm_num, by norm_num⟩)
    (by
      intro it hit
      simp only [List.mem_singleton] at hit
      subst hit
      refine ⟨rfl, by decide, by decide, ?_, ?_⟩
      · intro c hc
        injection hc with e
        subst e
        decide
      · intro c hc
        rw [show (['h', 'i'] : List Char).getLast? = some 'i' from rfl] at hc
        injection hc with e
        subst e
        decide)

/-- C2 counterexample: a text containing an HTML-like tag does not survive the
round trip: the written block stores `a<b>c` but `parse_srt` strips the tag
and returns `ac`. -/
theorem srt_round_trip_counterexample :
    (parse_srt (formatSrt [⟨1, 0, 1, ['a', '<', 'b', '>', 'c'], 1⟩])).map SrtItem.text ≠
      [['a', '<', 'b', '>', 'c']] := by
  rw [show formatSrt [⟨1, 0, 1, ['a', '<', 'b', '>', 'c'], 1⟩] =
      ['1', '\n', '0', '0', ':', '0', '0', ':', '0', '0', ',', '0', '0', '0',
       ' ', '-', '-', '>', ' ', '0', '0', ':', '0', '0', ':', '0', '1', ',', '0', '0', '0',
       '\n', 'a', '<', 'b', '>', 'c', '\n', '\n'] from by
    simp only [formatSrt, List.map_cons, List.map_nil, srtBlock,
      format_timestamp_zero, format_timestamp_one]
    rfl]
  decide

/-- C9 (corrected): after CR/LF and CR are normalized to LF, the text of every
parsed block is the block's raw text with surrounding whitespace stripped and
with EVERY non-overlapping match of the tag regex `<[^>]+>` removed, wherever
it occurs — not just one leading tag. -/
theorem parse_srt_tag_strip (it : SubtitleItem)
    (hb : 0 ≤ it.start ∧ it.start ≤ 359999 ∧ 0 ≤ it.endt ∧ it.endt ≤ 359999)
    (ht : hasBlank it.text = false ∧ '\r' ∉ it.text ∧ it.text.getLast? ≠ some '\n') :
    (parse_srt (formatSrt [it])).map SrtItem.text = [stripTags (pyStrip it.text)] := by
  have hcore := parse_srt_formatSrt [it] (fun x hx => by
    simp only [List.mem_singleton] at hx
    subst hx
    exact ⟨hb, ht.1, ht.2.2, ht.2.1⟩)
  obtain ⟨b, u', hr, hrest, heq⟩ := List.forall₂_cons_left_iff.mp hcore
  cases hrest
  rw [heq]
  simp only [List.map_cons, List.map_nil]
  rw [hr.2.1]

/-- Witness for C9: a concrete block whose text carries a leading tag. -/
theorem parse_srt_tag_strip_witness :
    (parse_srt (formatSrt [⟨1, 0, 1, ['<', 'i', '>', 'h', 'i'], 1⟩])).map SrtItem.text =
      [stripTags (pyStrip ['<', 'i', '>', 'h', 'i'])] :=
  parse_srt_tag_strip ⟨1, 0, 1, ['<', 'i', '>', 'h', 'i'], 1⟩
    ⟨by norm_num, by norm_num, by norm_num, by norm_num⟩
    ⟨rfl, by decide, by decide⟩

/-- C9 counterexample: a tag that is NOT leading is also removed: the stored
text `a <b> c` is parsed back as `a  c`, so tag-like substrings elsewhere in
the text are not kept. -/
theorem parse_srt_tag_counterexample :
    (parse_srt (formatSrt [⟨1, 0, 1, ['a', ' ', '<', 'b', '>', ' ', 'c'], 1⟩])).map
        SrtItem.text = [['a', ' ', ' ', 'c']] := by
  rw [show formatSrt [⟨1, 0, 1, ['a', ' ', '<', 'b', '>', ' ', 'c'], 1⟩] =
      ['1', '\n', '0', '0', ':', '0', '0', ':', '0', '0', ',', '0', '0', '0',
       ' ', '-', '-', '>', ' ', '0', '0', ':', '0', '0', ':', '0', '1', ',', '0', '0', '0',
       '\n', 'a', ' ', '<', 'b', '>', ' ', 'c', '\n', '\n'] from by
    simp only [formatSrt, List.map_cons, List.map_nil, srtBlock,
      format_timestamp_zero, format_timestamp_one]
    rfl]
  decide
